import Mathlib

/-!
Verification of the `holochain-cmd` packager core (`src/cli/package.rs` and
`src/config_files/build.rs`): the recursive tree-to-JSON encoder
(`Packager::bundle_recurse`), the matching decoder (`unpack_recurse`), and the
build-step runner (`Build::run`).

The embedding is shallow: `serde_json` objects become key-sorted association
lists (`serde_json::Map` is backed by a `BTreeMap`), the filesystem tree seen
by the walker becomes an inductive `FsNode`, byte strings become `List Nat`
with every element below 256, and external effects (the `serde_json` parsers
fed from the filesystem, `util::run_cmd`, and the artifact file produced by the
build commands) are collected in a `PackEnv` record of explicit functions.
Recursive functions over the tree use an explicit fuel argument so that every
definition is structural and kernel-reducible; the fuel is always taken large
enough (any bound above `sizeOf` works) and theorems carry it explicitly.
-/

set_option maxHeartbeats 1600000

namespace HolochainCmd

/-- JSON values as the packager uses them (`serde_json::Value` restricted to
the shapes the bundle format produces and inspects: null, strings, objects).
An object is a key-sorted association list, mirroring the `BTreeMap` backing
of `serde_json::Map`. -/
inductive Value where
  | null : Value
  | str (s : String) : Value
  | obj (entries : List (String × Value)) : Value

/-- A `serde_json::Map<String, Value>`: the `Object` alias of the source. -/
abbrev Obj := List (String × Value)

/-- Lexicographic comparison of character lists by code point — the order of
Rust's `Ord for String` (UTF-8 byte order coincides with code-point order). -/
def charsLt : List Char → List Char → Bool
  | [], [] => false
  | [], _ :: _ => true
  | _ :: _, [] => false
  | c :: cs, d :: ds =>
    if c.toNat < d.toNat then true
    else if d.toNat < c.toNat then false
    else charsLt cs ds

/-- The string order used by `BTreeMap<String, _>`. -/
def strLtB (a b : String) : Bool := charsLt a.data b.data

/-- `str::ends_with` on strings. -/
def endsWithB (s suffix : String) : Bool :=
  decide (suffix.data.length ≤ s.data.length) &&
    s.data.drop (s.data.length - suffix.data.length) == suffix.data

/-- `BTreeMap::insert`, keeping the association list sorted by key and
replacing an existing binding. -/
def insertKV {α : Type} (k : String) (v : α) : List (String × α) → List (String × α)
  | [] => [(k, v)]
  | (k', v') :: rest =>
    if strLtB k k' then (k, v) :: (k', v') :: rest
    else if k = k' then (k, v) :: rest
    else (k', v') :: insertKV k v rest

/-- `BTreeMap::get`: the value bound to `k`, if any. -/
def lookupKV {α : Type} (k : String) : List (String × α) → Option α
  | [] => none
  | (k', v) :: rest => if k = k' then some v else lookupKV k rest

/-- The map with the binding of `k` (if any) dropped. -/
def eraseKV {α : Type} (k : String) : List (String × α) → List (String × α)
  | [] => []
  | (k', v) :: rest => if k = k' then rest else (k', v) :: eraseKV k rest

/-- `BTreeMap::remove`: the removed value together with the remaining map. -/
def removeKV {α : Type} (k : String) (m : List (String × α)) :
    Option α × List (String × α) :=
  (lookupKV k m, eraseKV k m)

/-- The keys of an association list. -/
def keysOf {α : Type} (m : List (String × α)) : List String := m.map Prod.fst

/-! ### Base64 (the `base64` crate's standard alphabet with `=` padding) -/

/-- The standard base64 alphabet. -/
def b64Alphabet : List Char :=
  "ABCDEFGHIJKLMNOPQRSTUVWXYZabcdefghijklmnopqrstuvwxyz0123456789+/".data

/-- The alphabet character of a sextet. -/
def sextetChar (n : Nat) : Char := b64Alphabet.getD n 'A'

/-- `base64::encode`, chunk level: three bytes become four alphabet
characters, a final partial chunk is `=`-padded. -/
def b64EncodeChunks : List Nat → List Char
  | [] => []
  | [b1] => [sextetChar (b1 / 4), sextetChar (b1 % 4 * 16), '=', '=']
  | [b1, b2] =>
    [sextetChar (b1 / 4), sextetChar (b1 % 4 * 16 + b2 / 16),
     sextetChar (b2 % 16 * 4), '=']
  | b1 :: b2 :: b3 :: rest =>
    sextetChar (b1 / 4) :: sextetChar (b1 % 4 * 16 + b2 / 16) ::
    sextetChar (b2 % 16 * 4 + b3 / 64) :: sextetChar (b3 % 64) ::
    b64EncodeChunks rest

/-- `base64::encode` on a byte string. -/
def base64Encode (bs : List Nat) : String := ⟨b64EncodeChunks bs⟩

/-- The sextet of an alphabet character (`none` on a character outside the
alphabet, which makes the decoder fail as the crate does). -/
def sextetOfChar (c : Char) : Option Nat :=
  if 'A' ≤ c ∧ c ≤ 'Z' then some (c.toNat - 65)
  else if 'a' ≤ c ∧ c ≤ 'z' then some (c.toNat - 97 + 26)
  else if '0' ≤ c ∧ c ≤ '9' then some (c.toNat - 48 + 52)
  else if c = '+' then some 62
  else if c = '/' then some 63
  else none

/-- `base64::decode`, chunk level: four characters at a time, `=`-padding only
in a final chunk, anything else rejected. -/
def b64DecodeChunks : List Char → Option (List Nat)
  | [] => some []
  | c1 :: c2 :: c3 :: c4 :: rest =>
    match sextetOfChar c1, sextetOfChar c2 with
    | some s1, some s2 =>
      if c3 = '=' then
        if c4 = '=' ∧ rest = [] then some [s1 * 4 + s2 / 16] else none
      else
        match sextetOfChar c3 with
        | some s3 =>
          if c4 = '=' then
            if rest = [] then some [s1 * 4 + s2 / 16, s2 % 16 * 16 + s3 / 4]
            else none
          else
            match sextetOfChar c4, b64DecodeChunks rest with
            | some s4, some tail =>
              some ((s1 * 4 + s2 / 16) :: (s2 % 16 * 16 + s3 / 4) ::
                    (s3 % 4 * 64 + s4) :: tail)
            | _, _ => none
        | none => none
    | _, _ => none
  | _ => none

/-- `base64::decode` on a string. -/
def base64Decode (s : String) : Option (List Nat) := b64DecodeChunks s.data

/-! ### JSON serialization (`serde_json::to_writer_pretty` and `Value::to_string`) -/

/-- A lowercase hexadecimal digit. -/
def hexDigit (n : Nat) : Char := "0123456789abcdef".data.getD n '0'

/-- `serde_json`'s string escaping: quote, backslash, and the control
characters (short escapes for `\b \f \n \r \t`, `\u00xx` otherwise). -/
def escapeJsonChar (c : Char) : List Char :=
  if c = '"' then ['\\', '"']
  else if c = '\\' then ['\\', '\\']
  else if c = Char.ofNat 8 then ['\\', 'b']
  else if c = Char.ofNat 12 then ['\\', 'f']
  else if c = '\n' then ['\\', 'n']
  else if c = '\r' then ['\\', 'r']
  else if c = '\t' then ['\\', 't']
  else if c.toNat < 32 then
    ['\\', 'u', '0', '0', hexDigit (c.toNat / 16), hexDigit (c.toNat % 16)]
  else [c]

/-- Escape a whole string for JSON output. -/
def escapeJson (s : String) : String := ⟨s.data.flatMap escapeJsonChar⟩

/-- `n` spaces. -/
def padSpaces (n : Nat) : String := ⟨List.replicate n ' '⟩

/-- `serde_json::to_writer_pretty` (two-space indentation, `": "` after keys,
`{}` for an empty object), with fuel for the nested recursion. -/
def prettyVal : Nat → Nat → Value → String
  | 0, _, _ => ""
  | fuel + 1, ind, v =>
    match v with
    | .null => "null"
    | .str s => "\"" ++ escapeJson s ++ "\""
    | .obj [] => "\x7b\x7d"
    | .obj entries =>
      "\x7b\n" ++
      String.intercalate ",\n"
        (entries.map fun kv =>
          padSpaces (ind + 2) ++ "\"" ++ escapeJson kv.1 ++ "\": " ++
          prettyVal fuel (ind + 2) kv.2) ++
      "\n" ++ padSpaces ind ++ "\x7d"

/-- The pretty-printed document of an object, as written to the bundle file
and to a reconstructed config file. `fuel` bounds the nesting depth; any
value above the object's depth prints it in full. -/
def prettyPrintObj (fuel : Nat) (o : Obj) : String :=
  prettyVal fuel 0 (Value.obj o)

/-- `serde_json::Value::to_string` (the `Display` instance): compact JSON. -/
def compactVal : Nat → Value → String
  | 0, _ => ""
  | fuel + 1, v =>
    match v with
    | .null => "null"
    | .str s => "\"" ++ escapeJson s ++ "\""
    | .obj entries =>
      "\x7b" ++
      String.intercalate ","
        (entries.map fun kv =>
          "\"" ++ escapeJson kv.1 ++ "\":" ++ compactVal fuel kv.2) ++
      "\x7d"

/-- `Value::to_string` with explicit fuel for the nesting depth. -/
def jsonToString (fuel : Nat) (v : Value) : String := compactVal fuel v

/-- The bytes of a string (the packager's file contents are ASCII, so
per-character codes model UTF-8 faithfully here). -/
def strToBytes (s : String) : List Nat := s.data.map Char.toNat

/-! ### JSON parsing (`serde_json::from_str` on the shapes the format uses) -/

/-- Skip JSON whitespace. -/
def skipWs : List Char → List Char
  | [] => []
  | c :: rest =>
    if c = ' ' ∨ c = '\n' ∨ c = '\t' ∨ c = '\r' then skipWs rest else c :: rest

/-- Parse the remainder of a JSON string literal (the opening quote already
consumed), handling the simple escapes. -/
def parseStrAux : Nat → List Char → Option (String × List Char)
  | 0, _ => none
  | _, [] => none
  | fuel + 1, c :: rest =>
    if c = '"' then some ("", rest)
    else if c = '\\' then
      match rest with
      | [] => none
      | e :: rest2 =>
        let dec : Option Char :=
          if e = '"' then some '"'
          else if e = '\\' then some '\\'
          else if e = '/' then some '/'
          else if e = 'n' then some '\n'
          else if e = 't' then some '\t'
          else if e = 'r' then some '\r'
          else none
        match dec with
        | some d => (parseStrAux fuel rest2).map fun p => (⟨d :: p.1.data⟩, p.2)
        | none => none
    else (parseStrAux fuel rest).map fun p => (⟨c :: p.1.data⟩, p.2)

/-- Parse the entries of a JSON object (the opening brace already consumed),
accumulating into a sorted map as `serde_json`'s `BTreeMap` visitor does
(duplicate keys: the later binding wins). `pv` parses one value. -/
def parseEntriesAux (pv : List Char → Option (Value × List Char)) :
    Nat → Obj → List Char → Option (Obj × List Char)
  | 0, _, _ => none
  | fuel + 1, acc, cs =>
    match skipWs cs with
    | '\x7d' :: rest => some (acc, rest)
    | '"' :: rest =>
      match parseStrAux (rest.length + 1) rest with
      | some (key, cs2) =>
        match skipWs cs2 with
        | ':' :: cs3 =>
          match pv cs3 with
          | some (v, cs4) =>
            match skipWs cs4 with
            | ',' :: cs5 => parseEntriesAux pv fuel (insertKV key v acc) cs5
            | '\x7d' :: cs5 => some (insertKV key v acc, cs5)
            | _ => none
          | none => none
        | _ => none
      | none => none
    | _ => none

/-- Parse one JSON value of the supported shapes (null, string, object). -/
def parseValAux : Nat → List Char → Option (Value × List Char)
  | 0, _ => none
  | fuel + 1, cs =>
    match skipWs cs with
    | [] => none
    | c :: rest =>
      if c = 'n' then
        match rest with
        | 'u' :: 'l' :: 'l' :: rest2 => some (.null, rest2)
        | _ => none
      else if c = '"' then
        (parseStrAux (rest.length + 1) rest).map fun p => (Value.str p.1, p.2)
      else if c = '\x7b' then
        (parseEntriesAux (parseValAux fuel) (rest.length + 1) [] rest).map
          fun p => (Value.obj p.1, p.2)
      else none

/-- `serde_json::from_str::<Object>` on a file's bytes: the whole input must
be one JSON object with nothing but whitespace around it. -/
def parseJsonObjMini (bs : List Nat) : Except String Obj :=
  let cs := bs.map Char.ofNat
  match parseValAux (cs.length + 1) cs with
  | some (Value.obj o, csRem) =>
    if (skipWs csRem).isEmpty then .ok o else .error "trailing characters"
  | some _ => .error "invalid type: expected a map"
  | none => .error "JSON parse error"

/-! ### Paths -/

/-- The characters strictly before the last dot, or `none` when no dot
occurs. -/
def stemAux : List Char → Option (List Char)
  | [] => none
  | c :: rest =>
    match stemAux rest with
    | some s => some (c :: s)
    | none => if c = '.' then some [] else none

/-- `Path::file_stem` on a plain file name: the part before the last dot,
except that a lone leading dot (a hidden file with no further dot) starts no
extension. -/
def fileStem (name : String) : String :=
  match stemAux name.data with
  | some [] => name
  | some s => ⟨s⟩
  | none => name

/-- `Path::with_extension(WASM_FILE_EXTENSION)` on a plain file name: the
current extension (if any) is replaced by `wasm`. -/
def withExtensionWasm (name : String) : String := fileStem name ++ ".wasm"

/-! ### The filesystem tree and the external world -/

/-- A directory tree as the walker presents it: plain files with byte
contents, directories with named children in enumeration order. -/
inductive FsNode where
  | file (content : List Nat) : FsNode
  | dir (children : List (String × FsNode)) : FsNode

/-- Whether a node is a plain file (`Path::is_file`). -/
def FsNode.isFileB : FsNode → Bool
  | .file _ => true
  | .dir _ => false

/-- The first child with the given name (names are unique on a real
filesystem). -/
def findChild (name : String) : List (String × FsNode) → Option FsNode
  | [] => none
  | (n, node) :: rest => if n = name then some node else findChild name rest

/-- The `Build` struct of `src/config_files/build.rs`. `steps` is a
`HashMap<String, Vec<String>>` in the source; a `HashMap` retains no
insertion order, so the model carries the entries as a bare association list
standing for whatever order the map's iterator yields. -/
structure Build where
  steps : List (String × List String)
  artifact : String

/-- The external world of one pack run: the `serde_json` parser applied to a
config file's bytes, `Build::from_file`'s parse of a `.build` descriptor,
`util::run_cmd`'s success or failure per command, and the bytes of the
artifact file that the build commands leave behind (`none` when the artifact
path is missing or not a regular file). -/
structure PackEnv where
  parseJsonObj : List Nat → Except String Obj
  parseBuild : List Nat → Except String Build
  exec : String → List String → Bool
  artifactBytes : List (String × FsNode) → Build → Option (List Nat)

/-- The loop of `Build::run`: each declared command is executed via
`util::run_cmd`, a failing command aborts with an error. -/
def runSteps (exec : String → List String → Bool) :
    List (String × List String) → Except String Unit
  | [] => .ok ()
  | (bin, args) :: rest =>
    if exec bin args then runSteps exec rest
    else .error "command failed"

/-- `Build::run`: run all steps, then read the artifact file and return its
bytes base64-encoded; a missing artifact is an error. -/
def buildRun (exec : String → List String → Bool)
    (artifact : Option (List Nat)) (b : Build) : Except String String := do
  runSteps exec b.steps
  match artifact with
  | some bytes => .ok (base64Encode bytes)
  | none => .error "artifact path either doesn't point to a file or doesn't exist"

/-! ### The encoder (`Packager::bundle_recurse`) -/

/-- The per-child loop of `bundle_recurse` (lines 107-140): files are
base64-embedded and tagged `file`; a directory that directly contains a
`.build` entry is built and embedded as `{code: <artifact>}` tagged `bin`;
any other directory is recursed into via `recurse` and tagged `dir`. The two
accumulators are the level's `meta_tree` and `main_tree`. -/
def bundleNodes (env : PackEnv)
    (recurse : List (String × FsNode) → Except String Obj) :
    List (String × FsNode) → Obj → Obj → Except String (Obj × Obj)
  | [], metaTree, mainTree => .ok (metaTree, mainTree)
  | (name, node) :: rest, metaTree, mainTree =>
    match node with
    | .file content =>
      bundleNodes env recurse rest
        (insertKV name (Value.str "file") metaTree)
        (insertKV name (Value.str (base64Encode content)) mainTree)
    | .dir sub =>
      match findChild ".build" sub with
      | some (FsNode.file buildBytes) => do
        let build ← env.parseBuild buildBytes
        let wasm ← buildRun env.exec (env.artifactBytes sub build) build
        bundleNodes env recurse rest
          (insertKV name (Value.str "bin") metaTree)
          (insertKV name (Value.obj [("code", Value.str wasm)]) mainTree)
      | some (FsNode.dir _) =>
        .error "could not open .build"
      | none => do
        let subObj ← recurse sub
        bundleNodes env recurse rest
          (insertKV name (Value.str "dir") metaTree)
          (insertKV name (Value.obj subObj) mainTree)

/-- `Packager::bundle_recurse` on one level's listing: pick the first file
whose name ends in `.json` as the config file (recording its name under
`config_file` and seeding `main_tree` with its parsed fields), process every
other child, and unless `strip` is set attach the non-empty metadata under
`__META__`. `fuel` bounds the recursion depth (any value above `sizeOf` of
the listing is adequate). -/
def bundleRecurse (env : PackEnv) (strip : Bool) :
    Nat → List (String × FsNode) → Except String Obj
  | 0, _ => .error "recursion fuel exhausted"
  | fuel + 1, children => do
    let maybeJson :=
      (children.filter fun c => c.2.isFileB).find? fun c => endsWithB c.1 ".json"
    let allNodes :=
      match maybeJson with
      | none => children
      | some j => children.filter fun c => c.1 != j.1
    let (metaSection, mainTree0) ←
      match maybeJson with
      | some (jname, FsNode.file content) =>
        (env.parseJsonObj content).map fun cfg =>
          (([("config_file", Value.str jname)] : Obj), cfg)
      | _ => .ok (([] : Obj), ([] : Obj))
    let (metaTree, mainTree) ←
      bundleNodes env (bundleRecurse env strip fuel) allNodes [] mainTree0
    if strip then
      .ok mainTree
    else
      let metaSection1 :=
        if metaTree.isEmpty then metaSection
        else insertKV "tree" (Value.obj metaTree) metaSection
      if metaSection1.isEmpty then .ok mainTree
      else .ok (insertKV "__META__" (Value.obj metaSection1) mainTree)

/-- `Packager::run`: build the bundle object, then create the output file and
pretty-print the object into it. `.ok s` means the bundle file was created
with contents `s`; `.error e` means the recursion failed before
`File::create`, so no bundle file exists. -/
def packagerRun (env : PackEnv) (strip : Bool) (fuel : Nat)
    (children : List (String × FsNode)) : Except String String :=
  (bundleRecurse env strip fuel children).map (prettyPrintObj fuel)

/-- The walker's collection step (lines 69-72): `filter(|e| e.is_ok())`
followed by `map(unwrap)` — listing errors are dropped. -/
def collectOk {α : Type} : List (Except String α) → List α
  | [] => []
  | .ok a :: rest => a :: collectOk rest
  | .error _ :: rest => collectOk rest

/-- One level of `bundle_recurse` fed with the raw walker output, in which an
unreadable entry (or an unreadable directory, which lists as error entries
only) surfaces as `.error`. -/
def bundleLevelRaw (env : PackEnv) (strip : Bool) (fuel : Nat)
    (raw : List (Except String (String × FsNode))) : Except String Obj :=
  bundleRecurse env strip fuel (collectOk raw)

/-! ### The decoder (`unpack_recurse`) -/

/-- What unpacking writes beneath one destination directory, in write order. -/
abbrev UnpackOut := List (String × FsNode)

/-- The body of the metadata-tree loop (lines 181-218) for one declared
`(name, kind)` pair: remove the same-named entry from the remaining object
(absence is "incompatible meta section"), then dispatch on the declared kind
with the shape guards of the source `match`. The `bin` arm reproduces the
source exactly: it serializes `entry[&meta_entry]` (indexing the entry object
by the *declared name*, `Value::Null` when absent) with `Value::to_string`
and base64-decodes that text, and it writes to the name
`with_extension("wasm")`. Returns the shrunk object and the entries written. -/
def unpackEntry (fuel : Nat) (recurse : Obj → Except String UnpackOut)
    (name : String) (kindV : Value) (obj : Obj) :
    Except String (Obj × UnpackOut) :=
  match lookupKV name obj with
  | none => .error "incompatible meta section"
  | some entry =>
    let obj1 := eraseKV name obj
    match kindV with
    | Value.str nodeType =>
      if nodeType = "file" then
        match entry with
        | Value.str b64 =>
          match base64Decode b64 with
          | some bytes => .ok (obj1, [(name, FsNode.file bytes)])
          | none => .error "invalid base64"
        | _ => .error "incompatible meta section"
      else if nodeType = "bin" then
        match entry with
        | Value.obj entryObj =>
          match base64Decode (jsonToString fuel ((lookupKV name entryObj).getD Value.null)) with
          | some bytes =>
            .ok (obj1, [(withExtensionWasm name, FsNode.file bytes)])
          | none => .error "invalid base64"
        | _ => .error "incompatible meta section"
      else if nodeType = "dir" then
        match entry with
        | Value.obj dirObj => do
          let sub ← recurse dirObj
          .ok (obj1, [(name, FsNode.dir sub)])
        | _ => .error "incompatible meta section"
      else .error "incompatible meta section"
    | _ => .error "incompatible meta section"

/-- The metadata-tree loop over all declared pairs, in the (sorted) order of
the `tree` object, threading the remaining object and collecting writes. -/
def unpackEntries (fuel : Nat) (recurse : Obj → Except String UnpackOut) :
    List (String × Value) → Obj → Except String (Obj × UnpackOut)
  | [], obj => .ok (obj, [])
  | (name, kindV) :: rest, obj => do
    let (obj1, out1) ← unpackEntry fuel recurse name kindV obj
    let (obj2, out2) ← unpackEntries fuel recurse rest obj1
    .ok (obj2, out1 ++ out2)

/-- `unpack_recurse`: remove `__META__` (nothing is written when it is absent
or not an object), unpack the declared tree, then — when the metadata records
a config filename, which must be a string — write the keys remaining in the
object as one pretty-printed JSON file under that name, unless none remain. -/
def unpackRecurse : Nat → Obj → Except String UnpackOut
  | 0, _ => .error "recursion fuel exhausted"
  | fuel + 1, obj =>
    match removeKV "__META__" obj with
    | (some (Value.obj metaObj), obj1) =>
      let (treeVal, metaObj1) := removeKV "tree" metaObj
      (match treeVal with
       | some (Value.obj treeMeta) =>
         unpackEntries fuel (unpackRecurse fuel) treeMeta obj1
       | _ => .ok (obj1, [])) >>= fun (objRem, written) =>
      match (removeKV "config_file" metaObj1).1 with
      | some cfgV =>
        match cfgV with
        | Value.str cfgName =>
          if objRem.isEmpty then .ok written
          else .ok (written ++
            [(cfgName, FsNode.file (strToBytes (prettyPrintObj fuel objRem)))])
        | _ => .error "config file has to be a string"
      | none => .ok written
    | _ => .ok []

/-- One canonical instantiation of the external world for build-free concrete
runs: the mini JSON parser for config files; no `.build` descriptor parses
and no artifact exists (no example below contains a buildable directory
unless it supplies its own environment). -/
def defaultEnv : PackEnv where
  parseJsonObj := parseJsonObjMini
  parseBuild := fun _ => .error "no build descriptor"
  exec := fun _ _ => true
  artifactBytes := fun _ _ => none

/-! ### Side-condition predicates -/

/-- Name side conditions of the plain round-trip law: not a `.json` config
candidate, not the reserved `__META__` key, not the `.build` marker. -/
def goodNameB (n : String) : Bool :=
  !(endsWithB n ".json") && n != "__META__" && n != ".build"

/-- Strictly ascending names (the canonical listing of a set of siblings). -/
def sortedNamesB : List String → Bool
  | [] => true
  | [_] => true
  | a :: b :: rest => strLtB a b && sortedNamesB (b :: rest)

/-- Duplicate-free names. -/
def nodupNamesB : List String → Bool
  | [] => true
  | n :: rest => rest.all (fun m => m != n) && nodupNamesB rest

/-- A tree of plain files (byte values below 256) and plain subdirectories in
canonical sorted listing order, containing no `.json` file candidates, no
buildable directories and no reserved names, of depth below `fuel`. -/
def plainGoodB : Nat → List (String × FsNode) → Bool
  | 0, _ => false
  | fuel + 1, children =>
    sortedNamesB (children.map Prod.fst) &&
    children.all fun c =>
      goodNameB c.1 &&
      match c.2 with
      | .file content => content.all fun b => decide (b < 256)
      | .dir sub => plainGoodB fuel sub

/-- `Value::is_string`. -/
def isStrB : Value → Bool
  | .str _ => true
  | _ => false

/-- `Value::is_object`. -/
def isObjB : Value → Bool
  | .obj _ => true
  | _ => false

/-- The shape guard `unpack_recurse` applies per declared kind: `file`
demands a string entry, `bin` and `dir` demand object entries; any other
declared kind matches nothing. -/
def shapeMatchesB (kind : String) (v : Value) : Bool :=
  if kind = "file" then isStrB v
  else if kind = "bin" then isObjB v
  else if kind = "dir" then isObjB v
  else false

/-- A declared pair violates the metadata contract against the remaining
object: its name is absent, or the value's shape mismatches its kind. -/
def badPairB (name kind : String) (obj : Obj) : Bool :=
  match lookupKV name obj with
  | none => true
  | some v => !shapeMatchesB kind v

/-- The kind tag `bundle_recurse` records for a plain child. -/
def kindValOf : FsNode → Value
  | .file _ => Value.str "file"
  | .dir _ => Value.str "dir"

/-- The payload of a successful pack (dummy for the error case). -/
def okD : Except String Obj → Obj
  | .ok o => o
  | .error _ => []

/-- The value `bundle_recurse` inserts into `main_tree` for a plain child. -/
def mainValOf (recurse : List (String × FsNode) → Except String Obj) :
    FsNode → Value
  | .file content => Value.str (base64Encode content)
  | .dir sub => Value.obj (okD (recurse sub))

/-- `HashMap` construction from a build descriptor's declared `steps`
entries. A `HashMap` retains no insertion order: the map — and therefore the
iteration `Build::run` performs — is a function of the entry set alone,
independent of the declarative order in the descriptor file. The model
realizes that order-insensitivity canonically by key-sorting (later duplicate
declarations win, as in `serde`). -/
def hashMapOfEntries {α : Type} (l : List (String × α)) : List (String × α) :=
  l.foldl (fun acc kv => insertKV kv.1 kv.2 acc) []

/-- A buildable directory whose command steps fail under the environment:
its `.build` descriptor is a file that parses, and some declared command
exits non-zero when `Build::run` iterates the steps. -/
def stepsFailB (env : PackEnv) (sub : List (String × FsNode)) : Bool :=
  match findChild ".build" sub with
  | some (FsNode.file bc) =>
    match env.parseBuild bc with
    | .ok build =>
      match runSteps env.exec build.steps with
      | .error _ => true
      | .ok _ => false
    | .error _ => false
  | _ => false

/-- Somewhere along the plain directories the encoder recurses into, a
buildable directory's command steps fail. -/
def hasFailingBuildB (env : PackEnv) : Nat → List (String × FsNode) → Bool
  | 0, _ => false
  | fuel + 1, children =>
    children.any fun c =>
      match c.2 with
      | .file _ => false
      | .dir sub =>
        stepsFailB env sub ||
        (match findChild ".build" sub with
         | none => hasFailingBuildB env fuel sub
         | some _ => false)

/-- Duplicate-free sibling names along the encoder's traversal (what a real
filesystem guarantees). -/
def nodupTreeB : Nat → List (String × FsNode) → Bool
  | 0, _ => false
  | fuel + 1, children =>
    nodupNamesB (children.map Prod.fst) &&
    children.all fun c =>
      match c.2 with
      | .file _ => true
      | .dir sub =>
        match findChild ".build" sub with
        | none => nodupTreeB fuel sub
        | some _ => true

/-- Apply a key-indexed value transformation pointwise, preserving keys and
their order. -/
def mapVals (f : String → Value → Value) (o : Obj) : Obj :=
  o.map fun kv => (kv.1, f kv.1 kv.2)

/-- The rewrite that metadata stripping induces at one key of a packed
level: at a plain-subdirectory child the nested object is recursively
stripped; every other value is untouched. -/
def stripEntryVal (recurse : List (String × FsNode) → Obj → Obj)
    (children : List (String × FsNode)) (k : String) (v : Value) : Value :=
  match findChild k children with
  | some (FsNode.dir sub) =>
    match findChild ".build" sub with
    | none =>
      match v with
      | Value.obj e => Value.obj (recurse sub e)
      | _ => v
    | some _ => v
  | _ => v

/-- Remove the reserved `__META__` key at a level and recursively inside the
values sitting at plain-subdirectory children, following the source tree. -/
def stripAlong : Nat → List (String × FsNode) → Obj → Obj
  | 0, _, o => o
  | fuel + 1, children, o =>
    mapVals (stripEntryVal (stripAlong fuel) children) (eraseKV "__META__" o)

/-- The reserved key does not collide with content along the encoder's
traversal: sibling names are duplicate-free and avoid `__META__`, and a
selected config file that parses yields a (key-sorted, as `serde_json`'s
`BTreeMap` guarantees) object without a top-level `__META__` field. -/
def metaCleanB (env : PackEnv) : Nat → List (String × FsNode) → Bool
  | 0, _ => false
  | fuel + 1, children =>
    nodupNamesB (children.map Prod.fst) &&
    (children.all fun c => c.1 != "__META__") &&
    (match (children.filter fun c => c.2.isFileB).find?
        (fun c => endsWithB c.1 ".json") with
     | some (_, FsNode.file content) =>
       match env.parseJsonObj content with
       | .ok cfg =>
         (lookupKV "__META__" cfg).isNone && sortedNamesB (cfg.map Prod.fst)
       | .error _ => true
     | _ => true) &&
    children.all fun c =>
      match c.2 with
      | .file _ => true
      | .dir sub =>
        match findChild ".build" sub with
        | none => metaCleanB env fuel sub
        | some _ => true

/-- The environment of a pack run whose single build step fails. -/
def failEnv : PackEnv where
  parseJsonObj := parseJsonObjMini
  parseBuild := fun _ => .ok ⟨[("false", [])], "out.wasm"⟩
  exec := fun _ _ => false
  artifactBytes := fun _ _ => none

/-! ### Order lemmas for the key comparison -/

theorem charsLt_irrefl : ∀ cs : List Char, charsLt cs cs = false
  | [] => rfl
  | c :: cs => by simp [charsLt, charsLt_irrefl cs]

theorem charsLt_trans : ∀ a b c : List Char,
    charsLt a b = true → charsLt b c = true → charsLt a c = true := by
  intro a
  induction a with
  | nil =>
    intro b c h1 h2
    cases b with
    | nil => simp [charsLt] at h1
    | cons y ys =>
      cases c with
      | nil => simp [charsLt] at h2
      | cons z zs => simp [charsLt]
  | cons x xs ih =>
    intro b c h1 h2
    cases b with
    | nil => simp [charsLt] at h1
    | cons y ys =>
      cases c with
      | nil => simp [charsLt] at h2
      | cons z zs =>
        simp only [charsLt] at h1 h2 ⊢
        split_ifs at h1 h2 ⊢ <;>
          first
          | rfl
          | exact ih ys zs h1 h2
          | (exfalso; omega)
          | simp_all

theorem charsLt_eq_of_not : ∀ a b : List Char,
    charsLt a b = false → charsLt b a = false → a = b := by
  intro a
  induction a with
  | nil =>
    intro b h1 _
    cases b with
    | nil => rfl
    | cons y ys => simp [charsLt] at h1
  | cons x xs ih =>
    intro b h1 h2
    cases b with
    | nil => simp [charsLt] at h2
    | cons y ys =>
      simp only [charsLt] at h1 h2
      split_ifs at h1 h2 <;> try simp_all
      have hn : x.toNat = y.toNat := by omega
      have hxy : x = y := Char.eq_of_val_eq (UInt32.ext hn)
      exact ⟨hxy, ih ys h1 h2⟩

theorem strLtB_irrefl (a : String) : strLtB a a = false :=
  charsLt_irrefl a.data

theorem strLtB_trans {a b c : String} (h1 : strLtB a b = true)
    (h2 : strLtB b c = true) : strLtB a c = true :=
  charsLt_trans a.data b.data c.data h1 h2

theorem strLtB_eq_of_not {a b : String} (h1 : strLtB a b = false)
    (h2 : strLtB b a = false) : a = b := by
  have hd := charsLt_eq_of_not a.data b.data h1 h2
  cases a; cases b; exact congrArg String.mk hd

theorem strLtB_ne {a b : String} (h : strLtB a b = true) : a ≠ b := by
  intro he; subst he; simp [strLtB_irrefl] at h

theorem strLtB_asymm {a b : String} (h : strLtB a b = true) :
    strLtB b a = false := by
  cases hba : strLtB b a with
  | false => rfl
  | true => exact absurd (strLtB_trans h hba) (by simp [strLtB_irrefl])

/-! ### Association-map lemmas -/

theorem lookupKV_insertKV_self {α : Type} (k : String) (v : α) :
    ∀ m, lookupKV k (insertKV k v m) = some v
  | [] => by simp [insertKV, lookupKV]
  | (k', v') :: rest => by
    by_cases hlt : strLtB k k' = true
    · simp [insertKV, hlt, lookupKV]
    · by_cases heq : k = k'
      · simp [insertKV, hlt, heq, lookupKV, strLtB_irrefl]
      · simp [insertKV, hlt, heq, lookupKV, lookupKV_insertKV_self k v rest]

theorem lookupKV_insertKV_ne {α : Type} (k k2 : String) (v : α) (hne : k2 ≠ k) :
    ∀ m, lookupKV k2 (insertKV k v m) = lookupKV k2 m
  | [] => by simp [insertKV, lookupKV, hne]
  | (k', v') :: rest => by
    by_cases hlt : strLtB k k' = true
    · simp [insertKV, hlt, lookupKV, hne]
    · by_cases heq : k = k'
      · subst heq; simp [insertKV, hlt, lookupKV, hne]
      · simp [insertKV, hlt, heq, lookupKV,
          lookupKV_insertKV_ne k k2 v hne rest]

theorem lookupKV_eq_none_of {α : Type} (k : String) :
    ∀ m : List (String × α), (∀ p ∈ m, p.1 ≠ k) → lookupKV k m = none
  | [], _ => rfl
  | (k', v') :: rest, h => by
    have hk : k' ≠ k := h (k', v') (by simp)
    simp [lookupKV, Ne.symm hk]
    exact lookupKV_eq_none_of k rest fun p hp => h p (by simp [hp])

theorem eraseKV_insertKV {α : Type} (k : String) (v : α) :
    ∀ m, lookupKV k m = none → eraseKV k (insertKV k v m) = m
  | [], _ => by simp [insertKV, eraseKV]
  | (k', v') :: rest, h => by
    have hne : ¬(k = k') := by
      intro he; subst he; simp [lookupKV] at h
    have hrest : lookupKV k rest = none := by
      simpa [lookupKV, hne] using h
    by_cases hlt : strLtB k k' = true
    · simp [insertKV, hlt, eraseKV, hne]
    · simp [insertKV, hlt, hne, eraseKV,
        eraseKV_insertKV k v rest hrest]

theorem insertKV_append {α : Type} (k : String) (v : α) :
    ∀ m, (∀ p ∈ m, strLtB p.1 k = true) → insertKV k v m = m ++ [(k, v)]
  | [], _ => rfl
  | (k', v') :: rest, h => by
    have hk : strLtB k' k = true := h (k', v') (by simp)
    have h1 : strLtB k k' = false := strLtB_asymm hk
    have h2 : ¬(k = k') := fun he => strLtB_ne hk he.symm
    simp [insertKV, h1, h2]
    exact insertKV_append k v rest fun p hp => h p (by simp [hp])

/-! ### Base64 round trip -/

theorem sextet_roundtrip : ∀ n : Nat, n < 64 →
    sextetOfChar (sextetChar n) = some n := by decide

theorem sextetChar_ne_pad : ∀ n : Nat, n < 64 → sextetChar n ≠ '=' := by decide

theorem b64_chunks_roundtrip : ∀ bs : List Nat, (∀ b ∈ bs, b < 256) →
    b64DecodeChunks (b64EncodeChunks bs) = some bs
  | [], _ => rfl
  | [b1], h => by
    have h1 : b1 < 256 := h b1 (by simp)
    have e1 := sextet_roundtrip (b1 / 4) (by omega)
    have e2 := sextet_roundtrip (b1 % 4 * 16) (by omega)
    simp [b64EncodeChunks, b64DecodeChunks, e1, e2]
    omega
  | [b1, b2], h => by
    have h1 : b1 < 256 := h b1 (by simp)
    have h2 : b2 < 256 := h b2 (by simp)
    have e1 := sextet_roundtrip (b1 / 4) (by omega)
    have e2 := sextet_roundtrip (b1 % 4 * 16 + b2 / 16) (by omega)
    have n3 := sextetChar_ne_pad (b2 % 16 * 4) (by omega)
    have e3 := sextet_roundtrip (b2 % 16 * 4) (by omega)
    simp [b64EncodeChunks, b64DecodeChunks, e1, e2, e3, n3]
    omega
  | b1 :: b2 :: b3 :: rest, h => by
    have h1 : b1 < 256 := h b1 (by simp)
    have h2 : b2 < 256 := h b2 (by simp)
    have h3 : b3 < 256 := h b3 (by simp)
    have ih := b64_chunks_roundtrip rest (fun b hb => h b (by simp [hb]))
    have e1 := sextet_roundtrip (b1 / 4) (by omega)
    have e2 := sextet_roundtrip (b1 % 4 * 16 + b2 / 16) (by omega)
    have n3 := sextetChar_ne_pad (b2 % 16 * 4 + b3 / 64) (by omega)
    have e3 := sextet_roundtrip (b2 % 16 * 4 + b3 / 64) (by omega)
    have n4 := sextetChar_ne_pad (b3 % 64) (by omega)
    have e4 := sextet_roundtrip (b3 % 64) (by omega)
    simp [b64EncodeChunks, b64DecodeChunks, e1, e2, e3, e4, n3, n4, ih]
    omega

/-- `base64::decode` inverts `base64::encode` on byte strings. -/
theorem base64_roundtrip (bs : List Nat) (h : ∀ b ∈ bs, b < 256) :
    base64Decode (base64Encode bs) = some bs := by
  simpa [base64Decode, base64Encode] using b64_chunks_roundtrip bs h

/-! ### Sorted-listing lemmas -/

theorem sortedNamesB_tail {a : String} {names : List String}
    (h : sortedNamesB (a :: names) = true) : sortedNamesB names = true := by
  cases names with
  | nil => rfl
  | cons b rest =>
    simp only [sortedNamesB, Bool.and_eq_true] at h
    exact h.2

theorem sortedNamesB_head_lt :
    ∀ (a : String) (names : List String), sortedNamesB (a :: names) = true →
      ∀ n ∈ names, strLtB a n = true := by
  intro a names
  induction names generalizing a with
  | nil => intro _ n hn; simp at hn
  | cons b rest ih =>
    intro h n hn
    simp only [sortedNamesB, Bool.and_eq_true] at h
    rcases List.mem_cons.mp hn with he | hm
    · subst he; exact h.1
    · exact strLtB_trans h.1 (ih b h.2 n hm)

theorem findChild_eq_none_of (k : String) :
    ∀ children : List (String × FsNode), (∀ c ∈ children, c.1 ≠ k) →
      findChild k children = none
  | [], _ => rfl
  | (n, node) :: rest, h => by
    have hn : n ≠ k := h (n, node) (by simp)
    simp only [findChild, hn, if_false]
    exact findChild_eq_none_of k rest fun c hc => h c (by simp [hc])

/-! ### The shape of one packed level -/

theorem bundleNodes_eq (env : PackEnv)
    (recurse : List (String × FsNode) → Except String Obj) :
    ∀ (children : List (String × FsNode)) (metaAcc mainAcc : Obj),
    (∀ c ∈ children, ∀ p ∈ metaAcc, strLtB p.1 c.1 = true) →
    (∀ c ∈ children, ∀ p ∈ mainAcc, strLtB p.1 c.1 = true) →
    sortedNamesB (children.map Prod.fst) = true →
    (∀ name sub, (name, FsNode.dir sub) ∈ children →
      findChild ".build" sub = none ∧ ∃ o, recurse sub = .ok o) →
    bundleNodes env recurse children metaAcc mainAcc =
      .ok (metaAcc ++ children.map fun c => (c.1, kindValOf c.2),
           mainAcc ++ children.map fun c => (c.1, mainValOf recurse c.2)) := by
  intro children
  induction children with
  | nil => intro metaAcc mainAcc _ _ _ _; simp [bundleNodes]
  | cons c rest ih =>
    intro metaAcc mainAcc hmeta hmain hsort hdir
    obtain ⟨name, node⟩ := c
    have hmetaIns : insertKV name (kindValOf node) metaAcc
        = metaAcc ++ [(name, kindValOf node)] :=
      insertKV_append _ _ _ fun p hp => hmeta (name, node) (by simp) p hp
    have hmainIns : insertKV name (mainValOf recurse node) mainAcc
        = mainAcc ++ [(name, mainValOf recurse node)] :=
      insertKV_append _ _ _ fun p hp => hmain (name, node) (by simp) p hp
    have hheadlt : ∀ c2 ∈ rest, strLtB name c2.1 = true := by
      intro c2 hc2
      exact sortedNamesB_head_lt name (rest.map Prod.fst) hsort c2.1
        (List.mem_map.mpr ⟨c2, hc2, rfl⟩)
    have hmeta' : ∀ c2 ∈ rest, ∀ p ∈ metaAcc ++ [(name, kindValOf node)],
        strLtB p.1 c2.1 = true := by
      intro c2 hc2 p hp
      rcases List.mem_append.mp hp with hold | hnew
      · exact hmeta c2 (by simp [hc2]) p hold
      · simp at hnew; subst hnew; exact hheadlt c2 hc2
    have hmain' : ∀ c2 ∈ rest, ∀ p ∈ mainAcc ++ [(name, mainValOf recurse node)],
        strLtB p.1 c2.1 = true := by
      intro c2 hc2 p hp
      rcases List.mem_append.mp hp with hold | hnew
      · exact hmain c2 (by simp [hc2]) p hold
      · simp at hnew; subst hnew; exact hheadlt c2 hc2
    have hsort' : sortedNamesB (rest.map Prod.fst) = true :=
      sortedNamesB_tail (by simpa using hsort)
    have hdir' : ∀ name2 sub, (name2, FsNode.dir sub) ∈ rest →
        findChild ".build" sub = none ∧ ∃ o, recurse sub = .ok o :=
      fun name2 sub hm => hdir name2 sub (by simp [hm])
    cases node with
    | file content =>
      rw [show bundleNodes env recurse ((name, FsNode.file content) :: rest)
            metaAcc mainAcc
          = bundleNodes env recurse rest
              (insertKV name (Value.str "file") metaAcc)
              (insertKV name (Value.str (base64Encode content)) mainAcc)
          from rfl]
      rw [show (Value.str "file") = kindValOf (FsNode.file content) from rfl,
        show (Value.str (base64Encode content))
          = mainValOf recurse (FsNode.file content) from rfl]
      rw [hmetaIns, hmainIns, ih _ _ hmeta' hmain' hsort' hdir']
      simp
    | dir sub =>
      obtain ⟨hfb, o, hro⟩ := hdir name sub (by simp)
      have hstep : bundleNodes env recurse ((name, FsNode.dir sub) :: rest)
            metaAcc mainAcc
          = bundleNodes env recurse rest
              (insertKV name (Value.str "dir") metaAcc)
              (insertKV name (Value.obj o) mainAcc) := by
        simp [bundleNodes, hfb, hro, bind, Except.bind]
      have hval : Value.obj o = mainValOf recurse (FsNode.dir sub) := by
        simp [mainValOf, hro, okD]
      rw [hstep, hval,
        show (Value.str "dir") = kindValOf (FsNode.dir sub) from rfl]
      rw [hmetaIns, hmainIns, ih _ _ hmeta' hmain' hsort' hdir']
      simp

/-! ### The decoder inverts one packed level -/

theorem unpackEntries_roundtrip (fuel : Nat)
    (recurseU : Obj → Except String UnpackOut)
    (recurseP : List (String × FsNode) → Except String Obj) :
    ∀ children : List (String × FsNode),
    (∀ name b, (name, FsNode.file b) ∈ children → ∀ x ∈ b, x < 256) →
    (∀ name sub, (name, FsNode.dir sub) ∈ children →
      recurseU (okD (recurseP sub)) = .ok sub) →
    unpackEntries fuel recurseU (children.map fun c => (c.1, kindValOf c.2))
        (children.map fun c => (c.1, mainValOf recurseP c.2)) =
      .ok ([], children) := by
  intro children
  induction children with
  | nil => intro _ _; simp [unpackEntries]
  | cons c rest ih =>
    intro hbytes hdir
    obtain ⟨name, node⟩ := c
    have ihr := ih (fun n b hm => hbytes n b (by simp [hm]))
      (fun n sub hm => hdir n sub (by simp [hm]))
    cases node with
    | file content =>
      have hdec : base64Decode (base64Encode content) = some content :=
        base64_roundtrip content (hbytes name content (by simp))
      have hk0 : kindValOf (FsNode.file content) = Value.str "file" := rfl
      have hm0 : mainValOf recurseP (FsNode.file content)
          = Value.str (base64Encode content) := rfl
      simp only [List.map_cons, hk0, hm0]
      simp [unpackEntries, unpackEntry, lookupKV, eraseKV, hdec, ihr,
        bind, Except.bind]
    | dir sub =>
      have hrec : recurseU (okD (recurseP sub)) = .ok sub :=
        hdir name sub (by simp)
      have hk0 : kindValOf (FsNode.dir sub) = Value.str "dir" := rfl
      have hm0 : mainValOf recurseP (FsNode.dir sub)
          = Value.obj (okD (recurseP sub)) := rfl
      simp only [List.map_cons, hk0, hm0]
      simp [unpackEntries, unpackEntry, lookupKV, eraseKV, hrec, ihr,
        bind, Except.bind]

/-! ### The round-trip law on plain trees -/

theorem plain_roundtrip_aux (env : PackEnv) :
    ∀ (fuel : Nat) (children : List (String × FsNode)),
    plainGoodB fuel children = true →
    ∃ b, bundleRecurse env false fuel children = .ok b ∧
      unpackRecurse fuel b = .ok children := by
  intro fuel
  induction fuel with
  | zero => intro children h; simp [plainGoodB] at h
  | succ fuel ih =>
    intro children hgood
    simp only [plainGoodB, Bool.and_eq_true, List.all_eq_true] at hgood
    obtain ⟨hsort, hnodes⟩ := hgood
    have hgoodname : ∀ c ∈ children, goodNameB c.1 = true := by
      intro c hc
      exact (hnodes c hc).1
    have hnojson : (children.filter fun c => c.2.isFileB).find?
        (fun c => endsWithB c.1 ".json") = none := by
      apply List.find?_eq_none.mpr
      intro c hc
      have hcmem : c ∈ children := (List.mem_filter.mp hc).1
      have := hgoodname c hcmem
      simp only [goodNameB, Bool.and_eq_true, Bool.not_eq_true'] at this
      simp [this.1.1]
    have hbytes : ∀ name b, (name, FsNode.file b) ∈ children →
        ∀ x ∈ b, x < 256 := by
      intro name b hm x hx
      have h2 := (hnodes _ hm).2
      simp only [List.all_eq_true, decide_eq_true_eq] at h2
      exact h2 x hx
    have hsubgood : ∀ name sub, (name, FsNode.dir sub) ∈ children →
        plainGoodB fuel sub = true := by
      intro name sub hm
      exact (hnodes _ hm).2
    have hdirpack : ∀ name sub, (name, FsNode.dir sub) ∈ children →
        findChild ".build" sub = none ∧
          ∃ o, bundleRecurse env false fuel sub = .ok o := by
      intro name sub hm
      have hg := hsubgood name sub hm
      constructor
      · apply findChild_eq_none_of
        intro c hc
        have : goodNameB c.1 = true := by
          cases fuel with
          | zero => simp [plainGoodB] at hg
          | succ f =>
            simp only [plainGoodB, Bool.and_eq_true, List.all_eq_true] at hg
            exact (hg.2 c hc).1
        simp only [goodNameB, Bool.and_eq_true, bne_iff_ne] at this
        exact this.2
      · obtain ⟨b, hb, _⟩ := ih sub hg
        exact ⟨b, hb⟩
    have hshape := bundleNodes_eq env (bundleRecurse env false fuel) children
      [] [] (by simp) (by simp) hsort hdirpack
    cases children with
    | nil =>
      refine ⟨[], ?_, ?_⟩
      · simp [bundleRecurse, hnojson, bundleNodes, bind, Except.bind]
      · simp [unpackRecurse, removeKV, lookupKV, eraseKV]
    | cons c0 rest =>
      have hloop := unpackEntries_roundtrip fuel (unpackRecurse fuel)
        (bundleRecurse env false fuel) (c0 :: rest) hbytes
        (fun name sub hm => by
          obtain ⟨b2, hb2, hu2⟩ := ih sub (hsubgood name sub hm)
          rw [hb2]
          simpa [okD] using hu2)
      set metaTree : Obj := (c0 :: rest).map fun c => (c.1, kindValOf c.2)
        with hmt
      set mainTree : Obj :=
        (c0 :: rest).map fun c =>
          (c.1, mainValOf (bundleRecurse env false fuel) c.2) with hmn
      have hmetatree : metaTree.isEmpty = false := by simp [hmt]
      have hb : bundleRecurse env false (fuel + 1) (c0 :: rest) =
          .ok (insertKV "__META__"
            (Value.obj (insertKV "tree" (Value.obj metaTree) [])) mainTree) := by
        simp only [bundleRecurse, hnojson]
        simp only [bind, Except.bind, hshape]
        simp [hmetatree, insertKV]
      have hmetaNotIn : lookupKV "__META__" mainTree = none := by
        apply lookupKV_eq_none_of
        intro p hp
        simp only [hmn, List.mem_map] at hp
        obtain ⟨c, hc, rfl⟩ := hp
        have := hgoodname c hc
        simp only [goodNameB, Bool.and_eq_true, bne_iff_ne] at this
        exact this.1.2
      refine ⟨_, hb, ?_⟩
      have hmeta1 : lookupKV "__META__" (insertKV "__META__"
          (Value.obj (insertKV "tree" (Value.obj metaTree) [])) mainTree)
          = some (Value.obj (insertKV "tree" (Value.obj metaTree) [])) :=
        lookupKV_insertKV_self _ _ _
      have hmeta2 : eraseKV "__META__" (insertKV "__META__"
          (Value.obj (insertKV "tree" (Value.obj metaTree) [])) mainTree)
          = mainTree :=
        eraseKV_insertKV _ _ _ hmetaNotIn
      simp only [unpackRecurse, removeKV, hmeta1, hmeta2]
      simp [insertKV, lookupKV, eraseKV, hloop, bind, Except.bind]

/-- A string without a dot has no extension, so its stem is itself. -/
theorem stemAux_eq_none : ∀ cs : List Char, '.' ∉ cs → stemAux cs = none
  | [], _ => rfl
  | c :: rest, h => by
    have hc : ¬(c = '.') := fun he => h (by simp [he])
    have hr : '.' ∉ rest := fun hm => h (by simp [hm])
    simp [stemAux, stemAux_eq_none rest hr, hc]

/-- A string containing a dot has a stem: `stemAux` does not return `none`. -/
theorem stemAux_ne_none : ∀ cs : List Char, '.' ∈ cs → stemAux cs ≠ none
  | [], h => absurd h (List.not_mem_nil _)
  | c :: rest, h => by
    intro he
    cases hr : stemAux rest with
    | some s => simp [stemAux, hr] at he
    | none =>
      have hrd : '.' ∉ rest := fun hm => stemAux_ne_none rest hm hr
      have hc : c = '.' := by
        rcases List.mem_cons.mp h with h1 | h2
        · exact h1.symm
        · exact absurd h2 hrd
      simp [stemAux, hr, hc] at he

/-- The stem `stemAux` finds is strictly shorter than the name: at least
the final dot is dropped. -/
theorem stemAux_length : ∀ cs s : List Char, stemAux cs = some s →
    s.length < cs.length
  | [], s, h => by simp [stemAux] at h
  | c :: rest, s, h => by
    cases hr : stemAux rest with
    | some s2 =>
      have hlen := stemAux_length rest s2 hr
      simp [stemAux, hr] at h
      subst h
      simpa using Nat.succ_lt_succ hlen
    | none =>
      by_cases hc : c = '.'
      · simp [stemAux, hr, hc] at h
        subst h
        simp
      · simp [stemAux, hr, hc] at h

/-- The stem equals the whole name exactly when no dot occurs after the
first character: either the name has no dot at all, or its lone dot is the
leading one of a hidden file, which starts no extension. -/
theorem fileStem_eq_self_iff (n : String) :
    fileStem n = n ↔ '.' ∉ n.data.drop 1 := by
  constructor
  · intro h hdot
    cases hd : n.data with
    | nil => rw [hd] at hdot; simp at hdot
    | cons c rest =>
      rw [hd] at hdot
      simp only [List.drop_succ_cons, List.drop_zero] at hdot
      cases hr : stemAux rest with
      | none => exact stemAux_ne_none rest hdot hr
      | some s =>
        have hst : stemAux n.data = some (c :: s) := by
          rw [hd]; simp [stemAux, hr]
        have hlen := stemAux_length rest s hr
        have hfs : fileStem n = ⟨c :: s⟩ := by
          simp [fileStem, hst]
        rw [hfs] at h
        have hdata : (c :: s) = n.data := congrArg String.data h
        rw [hd] at hdata
        simp only [List.cons.injEq] at hdata
        have : rest.length < rest.length := by
          rw [← hdata.2] at hlen ⊢; exact hlen
        exact absurd this (lt_irrefl _)
  · intro h
    cases hd : n.data with
    | nil =>
      have hn : stemAux n.data = none := by rw [hd]; rfl
      simp [fileStem, hn]
    | cons c rest =>
      have hr : '.' ∉ rest := by
        rw [hd] at h
        simpa using h
      have hrn : stemAux rest = none := stemAux_eq_none rest hr
      by_cases hc : c = '.'
      · have hsome : stemAux n.data = some [] := by
          rw [hd]; simp [stemAux, hrn, hc]
        simp [fileStem, hsome]
      · have hnone : stemAux n.data = none := by
          rw [hd]; simp [stemAux, hrn, hc]
        simp [fileStem, hnone]

/-! ### No reserved key in a clean level -/

theorem bundleNodes_lookup_none (env : PackEnv)
    (recurse : List (String × FsNode) → Except String Obj) (k : String) :
    ∀ (children : List (String × FsNode)) (metaAcc mainAcc mt mn : Obj),
    (∀ c ∈ children, c.1 ≠ k) →
    lookupKV k mainAcc = none →
    bundleNodes env recurse children metaAcc mainAcc = .ok (mt, mn) →
    lookupKV k mn = none := by
  intro children
  induction children with
  | nil =>
    intro metaAcc mainAcc mt mn _ hacc heq
    simp only [bundleNodes, Except.ok.injEq] at heq
    cases heq
    exact hacc
  | cons c rest ih =>
    intro metaAcc mainAcc mt mn hnames hacc heq
    obtain ⟨name, node⟩ := c
    have hkname : name ≠ k := hnames (name, node) (by simp)
    have hne : k ≠ name := Ne.symm hkname
    have hacc' : ∀ v : Value, lookupKV k (insertKV name v mainAcc) = none :=
      fun v => (lookupKV_insertKV_ne name k v hne mainAcc).trans hacc
    have hrest : ∀ c2 ∈ rest, c2.1 ≠ k := fun c2 hc2 => hnames c2 (by simp [hc2])
    cases node with
    | file content =>
      simp only [bundleNodes] at heq
      exact ih _ _ _ _ hrest (hacc' _) heq
    | dir sub =>
      simp only [bundleNodes] at heq
      cases hfb : findChild ".build" sub with
      | none =>
        simp only [hfb] at heq
        cases hrec : recurse sub with
        | error e => simp only [hrec, bind, Except.bind] at heq; simp at heq
        | ok o =>
          simp only [hrec, bind, Except.bind] at heq
          exact ih _ _ _ _ hrest (hacc' _) heq
      | some bnode =>
        cases bnode with
        | file bc =>
          simp only [hfb] at heq
          cases hpb : env.parseBuild bc with
          | error e => simp only [hpb, bind, Except.bind] at heq; simp at heq
          | ok build =>
            simp only [hpb, bind, Except.bind] at heq
            cases hbr : buildRun env.exec (env.artifactBytes sub build) build with
            | error e => simp only [hbr, bind, Except.bind] at heq; simp at heq
            | ok wasm =>
              simp only [hbr, bind, Except.bind] at heq
              exact ih _ _ _ _ hrest (hacc' _) heq
        | dir d => simp only [hfb] at heq; simp at heq

/-- A metadata-stripped pack of a level whose child names and hoisted config
keys avoid the reserved key yields an object without `__META__`. -/
theorem strip_pack_no_meta (env : PackEnv) (fuel : Nat)
    (children : List (String × FsNode)) (b : Obj)
    (hnames : ∀ c ∈ children, c.1 ≠ "__META__")
    (hcfg : ∀ jname content,
      (children.filter fun c => c.2.isFileB).find?
          (fun c => endsWithB c.1 ".json") = some (jname, FsNode.file content) →
      ∀ o, env.parseJsonObj content = .ok o → lookupKV "__META__" o = none)
    (hok : bundleRecurse env true (fuel + 1) children = .ok b) :
    lookupKV "__META__" b = none := by
  simp only [bundleRecurse] at hok
  cases hfind : (children.filter fun c => c.2.isFileB).find?
      (fun c => endsWithB c.1 ".json") with
  | none =>
    simp only [hfind, bind, Except.bind] at hok
    cases hbn : bundleNodes env (bundleRecurse env true fuel) children [] [] with
    | error e => simp only [hbn] at hok; simp at hok
    | ok p =>
      simp only [hbn] at hok
      simp at hok
      exact hok ▸ bundleNodes_lookup_none env _ _ children [] [] p.1 p.2
        hnames rfl (by rw [hbn])
  | some j =>
    obtain ⟨jname, jnode⟩ := j
    cases jnode with
    | file content =>
      simp only [hfind] at hok
      cases hp : env.parseJsonObj content with
      | error e => simp only [hp, Except.map, bind, Except.bind] at hok; simp at hok
      | ok cfg =>
        simp only [hp, Except.map, bind, Except.bind] at hok
        cases hbn : bundleNodes env (bundleRecurse env true fuel)
            (children.filter fun c => c.1 != jname) [] cfg with
        | error e => simp only [hbn] at hok; simp at hok
        | ok p =>
          simp only [hbn] at hok
          simp at hok
          have hcfgnone : lookupKV "__META__" cfg = none :=
            hcfg jname content hfind cfg hp
          have hfnames : ∀ c ∈ (children.filter fun c => c.1 != jname),
              c.1 ≠ "__META__" :=
            fun c hc => hnames c (List.mem_of_mem_filter hc)
          exact hok ▸ bundleNodes_lookup_none env _ _ _ [] cfg p.1 p.2
            hfnames hcfgnone (by rw [hbn])
    | dir d =>
      simp only [hfind, bind, Except.bind] at hok
      cases hbn : bundleNodes env (bundleRecurse env true fuel)
          (children.filter fun c => c.1 != jname) [] [] with
      | error e => simp only [hbn] at hok; simp at hok
      | ok p =>
        simp only [hbn] at hok
        simp at hok
        have hfnames : ∀ c ∈ (children.filter fun c => c.1 != jname),
            c.1 ≠ "__META__" :=
          fun c hc => hnames c (List.mem_of_mem_filter hc)
        exact hok ▸ bundleNodes_lookup_none env _ _ _ [] [] p.1 p.2
          hfnames rfl (by rw [hbn])

/-! ### Claim C1 -/

/-- C1: the round-trip law as stated fails — a level holding exactly one JSON
object file (here `a.json` with content `{}`) packs to a metadata-only bundle
that unpacks to an empty tree: the config file is not reproduced. -/
theorem C1_counterexample :
    (bundleRecurse defaultEnv false 10
        [("a.json", FsNode.file (strToBytes "\x7b\x7d"))]).bind
        (unpackRecurse 10)
      = .ok ([] : UnpackOut) ∧
    ([] : UnpackOut) ≠ [("a.json", FsNode.file (strToBytes "\x7b\x7d"))] :=
  ⟨rfl, by simp⟩

/-- C1 (amended): for every tree of plain files (byte contents) and plain
subdirectories, listed in canonical sorted order with no name ending in
`.json` (so no config hoisting), no name equal to the reserved `__META__`
key, and no name equal to the `.build` marker (so no buildable directories),
packing with metadata and then unpacking the resulting bundle object
reproduces the tree exactly in names, hierarchy, and byte content. -/
theorem C1_roundtrip_plain_trees (env : PackEnv) (fuel : Nat)
    (children : List (String × FsNode))
    (hgood : plainGoodB fuel children = true) :
    (bundleRecurse env false fuel children).bind (unpackRecurse fuel)
      = .ok children := by
  obtain ⟨b, hb, hu⟩ := plain_roundtrip_aux env fuel children hgood
  rw [hb]
  simpa [bind, Except.bind] using hu

/-- C1 witness: the amended round-trip law evaluated on a concrete two-level
tree. -/
theorem C1_witness :
    plainGoodB 3 [("a.txt", FsNode.file [104, 105]),
      ("sub", FsNode.dir [("b.txt", FsNode.file [1, 2, 3]),
        ("empty", FsNode.dir [])])] = true ∧
    (bundleRecurse defaultEnv false 3 [("a.txt", FsNode.file [104, 105]),
        ("sub", FsNode.dir [("b.txt", FsNode.file [1, 2, 3]),
          ("empty", FsNode.dir [])])]).bind (unpackRecurse 3)
      = .ok [("a.txt", FsNode.file [104, 105]),
        ("sub", FsNode.dir [("b.txt", FsNode.file [1, 2, 3]),
          ("empty", FsNode.dir [])])] :=
  ⟨rfl, C1_roundtrip_plain_trees defaultEnv 3 _ rfl⟩

/-! ### Claim C2 -/

/-- C2: the decoder does not decode the `code` field of a `bin` entry. At a
level declaring `m` as kind `bin` with entry `{"code": "aGk="}` (the payload
`aGk=` decodes to the bytes `hi` = `[104, 105]`), the source evaluates
`entry[&meta_entry]` — indexing by the declared name `m`, which is absent, so
`Value::Null` — serializes it to the text `null`, and base64-decodes that,
writing the unrelated bytes `[158, 233, 101]` instead of `[104, 105]`. -/
theorem C2_bin_ignores_code_field :
    unpackRecurse 10
      [("__META__", Value.obj [("tree", Value.obj [("m", Value.str "bin")])]),
       ("m", Value.obj [("code", Value.str "aGk=")])]
      = .ok [("m.wasm", FsNode.file [158, 233, 101])] ∧
    base64Decode "aGk=" = some [104, 105] :=
  ⟨rfl, rfl⟩

/-! ### Claim C3 -/

/-- C3: the binary-artifact suffix is not appended to the full name. For a
`bin` entry named `a.b`, the decoder writes `a.wasm` — `with_extension`
replaces the existing extension — not `a.b.wasm`. -/
theorem C3_counterexample :
    unpackRecurse 10
      [("__META__", Value.obj [("tree", Value.obj [("a.b", Value.str "bin")])]),
       ("a.b", Value.obj [("code", Value.str "aGk=")])]
      = .ok [("a.wasm", FsNode.file [158, 233, 101])] ∧
    ("a.wasm" : String) ≠ "a.b" ++ ".wasm" :=
  ⟨rfl, by decide⟩

/-- C3 (amended): a `bin` entry named `name` is written to
`name.with_extension("wasm")` — the stem of `name` with `.wasm` substituted
for any extension `name` already had; the full original name is preserved
before the suffix exactly when `name` has no dot after its first character
(no dot at all, or only the leading dot of a hidden file, which starts no
extension). -/
theorem C3_bin_write_extension (fuel : Nat)
    (recurse : Obj → Except String UnpackOut) (name : String) (obj : Obj)
    (entryObj : List (String × Value)) (bytes : List Nat)
    (hlook : lookupKV name obj = some (Value.obj entryObj))
    (hdec : base64Decode
      (jsonToString fuel ((lookupKV name entryObj).getD Value.null))
      = some bytes) :
    unpackEntry fuel recurse name (Value.str "bin") obj
      = .ok (eraseKV name obj,
          [(fileStem name ++ ".wasm", FsNode.file bytes)]) ∧
    (∀ n : String, fileStem n = n ↔ '.' ∉ n.data.drop 1) := by
  constructor
  · simp [unpackEntry, hlook, hdec, withExtensionWasm]
  · intro n
    exact fileStem_eq_self_iff n

/-- C3 witness: the amended path law evaluated at the entry `a.b`, whose
written name is `a.wasm`; the preservation criterion refutes preservation
for `a.b` (a dot after the first character) and affirms it for the
hidden-file name `.b` (leading dot only). -/
theorem C3_witness :
    lookupKV "a.b" [("a.b", Value.obj [("code", Value.str "aGk=")])]
      = some (Value.obj [("code", Value.str "aGk=")]) ∧
    unpackEntry 9 (unpackRecurse 9) "a.b"
        (Value.str "bin") [("a.b", Value.obj [("code", Value.str "aGk=")])]
      = .ok ([], [(fileStem "a.b" ++ ".wasm", FsNode.file [158, 233, 101])]) ∧
    fileStem "a.b" ≠ "a.b" ∧ fileStem ".b" = ".b" := by
  have h := C3_bin_write_extension 9 (unpackRecurse 9) "a.b"
    [("a.b", Value.obj [("code", Value.str "aGk=")])]
    [("code", Value.str "aGk=")] [158, 233, 101] rfl rfl
  exact ⟨rfl, h.1, fun he => absurd ((h.2 "a.b").mp he) (by decide),
    (h.2 ".b").mpr (by decide)⟩

/-! ### Claim C5 -/

/-- C5: as stated, the property fails — a stripped bundle can unpack without
error while silently writing entries. A tree with a directory literally named
`__META__` (whose `tree` subdirectory holds a file `a` whose bytes encode to
the base64 text `file`) strip-packs to an object whose `__META__` key the
decoder mistakes for metadata; the root file `a` is then written. -/
theorem C5_counterexample :
    (bundleRecurse defaultEnv true 10
        [("__META__", FsNode.dir [("tree", FsNode.dir
            [("a", FsNode.file [126, 41, 94])])]),
         ("a", FsNode.file [104, 101, 108, 108, 111])]).bind (unpackRecurse 10)
      = .ok [("a", FsNode.file [104, 101, 108, 108, 111])] ∧
    [("a", FsNode.file [104, 101, 108, 108, 111])] ≠ ([] : UnpackOut) :=
  ⟨rfl, by simp⟩

/-- C5 (amended): for every tree whose root-level child names avoid the
reserved `__META__` key and whose hoisted root config object (if one is
selected and parses) has no `__META__` field, a successful `strip_meta=true`
pack yields a bundle that unpacking consumes without error and without
writing any entry. -/
theorem C5_strip_unpack_writes_nothing (env : PackEnv) (fuel fuel2 : Nat)
    (children : List (String × FsNode)) (b : Obj)
    (hnames : ∀ c ∈ children, c.1 ≠ "__META__")
    (hcfg : ∀ jname content,
      (children.filter fun c => c.2.isFileB).find?
          (fun c => endsWithB c.1 ".json") = some (jname, FsNode.file content) →
      ∀ o, env.parseJsonObj content = .ok o → lookupKV "__META__" o = none)
    (hok : bundleRecurse env true (fuel + 1) children = .ok b) :
    unpackRecurse (fuel2 + 1) b = .ok [] := by
  have hlook : lookupKV "__META__" b = none :=
    strip_pack_no_meta env fuel children b hnames hcfg hok
  simp only [unpackRecurse, removeKV, hlook]

/-- C5 witness: the amended property evaluated on a clean one-file tree. -/
theorem C5_witness :
    bundleRecurse defaultEnv true 1 [("a.txt", FsNode.file [1])]
      = .ok [("a.txt", Value.str "AQ==")] ∧
    unpackRecurse 1 [("a.txt", Value.str "AQ==")] = .ok [] :=
  ⟨rfl, C5_strip_unpack_writes_nothing defaultEnv 0 0
    [("a.txt", FsNode.file [1])] [("a.txt", Value.str "AQ==")]
    (by decide)
    (fun j c h => by simp at h; exact absurd h.1.2 (by decide)) rfl⟩

/-! ### Claim C6 -/

theorem lookupKV_eraseKV_ne {α : Type} (k k0 : String) (hne : k ≠ k0) :
    ∀ m : List (String × α), lookupKV k (eraseKV k0 m) = lookupKV k m
  | [] => rfl
  | (k', v) :: rest => by
    by_cases h0 : k0 = k'
    · subst h0
      simp [eraseKV, lookupKV, hne]
    · simp only [eraseKV, h0, if_false]
      by_cases hk : k = k'
      · simp [lookupKV, hk]
      · simp [lookupKV, hk, lookupKV_eraseKV_ne k k0 hne rest]

/-- Every successful per-entry step leaves exactly the same-named binding
removed from the remaining object. -/
theorem unpackEntry_ok_obj (fuel : Nat)
    (recurse : Obj → Except String UnpackOut) (name : String) (kv : Value)
    (obj : Obj) (p : Obj × UnpackOut)
    (h : unpackEntry fuel recurse name kv obj = .ok p) :
    p.1 = eraseKV name obj := by
  cases hl : lookupKV name obj with
  | none => simp [unpackEntry, hl] at h
  | some entry =>
    cases kv with
    | null => simp [unpackEntry, hl] at h
    | obj o => simp [unpackEntry, hl] at h
    | str nodeType =>
      simp only [unpackEntry, hl] at h
      split_ifs at h with h1 h2 h3
      · cases entry with
        | str b64 =>
          cases hd : base64Decode b64 with
          | some bytes =>
            simp only [hd] at h
            have := Except.ok.inj h
            subst this
            rfl
          | none => simp [hd] at h
        | null => simp at h
        | obj o => simp at h
      · cases entry with
        | obj entryObj =>
          cases hd : base64Decode
              (jsonToString fuel ((lookupKV name entryObj).getD Value.null)) with
          | some bytes =>
            simp only [hd] at h
            have := Except.ok.inj h
            subst this
            rfl
          | none => simp [hd] at h
        | null => simp at h
        | str s => simp at h
      · cases entry with
        | obj dirObj =>
          cases hr : recurse dirObj with
          | error e => simp [hr, bind, Except.bind] at h
          | ok sub =>
            simp only [hr, bind, Except.bind] at h
            have := Except.ok.inj h
            subst this
            rfl
        | null => simp at h
        | str s => simp at h

/-- A declared pair whose entry is absent or shape-mismatched makes the
per-entry step fail with the `incompatible meta section` error. -/
theorem unpackEntry_bad_error (fuel : Nat)
    (recurse : Obj → Except String UnpackOut) (name kind : String) (obj : Obj)
    (hkind : kind = "file" ∨ kind = "bin" ∨ kind = "dir")
    (hbad : badPairB name kind obj = true) :
    unpackEntry fuel recurse name (Value.str kind) obj
      = .error "incompatible meta section" := by
  simp only [unpackEntry]
  cases hl : lookupKV name obj with
  | none => rfl
  | some entry =>
    simp only [badPairB, hl, Bool.not_eq_true'] at hbad
    rcases hkind with hk | hk | hk <;> subst hk <;>
      cases entry <;> simp_all [shapeMatchesB, isStrB, isObjB]

/-- If any declared pair of a level's metadata tree violates the contract,
the whole tree loop fails. -/
theorem unpackEntries_bad_fails (fuel : Nat)
    (recurse : Obj → Except String UnpackOut) :
    ∀ (treeMeta : List (String × Value)) (obj : Obj) (name kind : String),
    (name, Value.str kind) ∈ treeMeta →
    nodupNamesB (treeMeta.map Prod.fst) = true →
    (kind = "file" ∨ kind = "bin" ∨ kind = "dir") →
    badPairB name kind obj = true →
    ∃ e, unpackEntries fuel recurse treeMeta obj = .error e := by
  intro treeMeta
  induction treeMeta with
  | nil => intro obj name kind hmem; simp at hmem
  | cons p0 rest ih =>
    intro obj name kind hmem hnodup hkind hbad
    obtain ⟨n0, kv0⟩ := p0
    simp only [List.map_cons, nodupNamesB, Bool.and_eq_true, List.all_eq_true] at hnodup
    rcases List.mem_cons.mp hmem with hhead | htail
    · obtain ⟨hn, hv⟩ := Prod.mk.inj hhead
      subst hn; subst hv
      have herr := unpackEntry_bad_error fuel recurse name kind obj hkind hbad
      exact ⟨"incompatible meta section",
        by simp [unpackEntries, herr, bind, Except.bind]⟩
    · have hne : name ≠ n0 := by
        intro he
        subst he
        have hmemkey : name ∈ rest.map Prod.fst :=
          List.mem_map.mpr ⟨(name, Value.str kind), htail, rfl⟩
        have := hnodup.1 name hmemkey
        simp at this
      cases hu : unpackEntry fuel recurse n0 kv0 obj with
      | error e =>
        exact ⟨e, by simp [unpackEntries, hu, bind, Except.bind]⟩
      | ok q =>
        have hq1 : q.1 = eraseKV n0 obj :=
          unpackEntry_ok_obj fuel recurse n0 kv0 obj q hu
        have hbad' : badPairB name kind q.1 = true := by
          rw [hq1]
          simp only [badPairB, lookupKV_eraseKV_ne name n0 hne obj]
          simpa [badPairB] using hbad
        obtain ⟨e, he⟩ := ih q.1 name kind htail hnodup.2 hkind hbad'
        exact ⟨e, by simp [unpackEntries, hu, bind, Except.bind, he]⟩

/-- C6: for every `(name, kind)` pair declared in a level's metadata tree
with `kind` one of `file`, `bin`, `dir`, if the same-named key is absent from
the remaining object or its value's shape mismatches the declared kind (in
particular a `dir` declared over a string value), unpacking that level fails,
and the step that consumes the pair fails with the FormatError
`incompatible meta section`. -/
theorem C6_incompatible_meta (fuel : Nat) (obj : Obj)
    (metaObj treeMeta : List (String × Value)) (name kind : String)
    (hmeta : lookupKV "__META__" obj = some (Value.obj metaObj))
    (htree : lookupKV "tree" metaObj = some (Value.obj treeMeta))
    (hmem : (name, Value.str kind) ∈ treeMeta)
    (hnodup : nodupNamesB (treeMeta.map Prod.fst) = true)
    (hkind : kind = "file" ∨ kind = "bin" ∨ kind = "dir")
    (hbad : badPairB name kind (eraseKV "__META__" obj) = true) :
    (∃ e, unpackRecurse (fuel + 1) obj = .error e) ∧
    ∀ obj2 : Obj, badPairB name kind obj2 = true →
      unpackEntry fuel (unpackRecurse fuel) name (Value.str kind) obj2
        = .error "incompatible meta section" := by
  constructor
  · obtain ⟨e, he⟩ := unpackEntries_bad_fails fuel (unpackRecurse fuel)
      treeMeta (eraseKV "__META__" obj) name kind hmem hnodup hkind hbad
    refine ⟨e, ?_⟩
    simp [unpackRecurse, removeKV, hmeta, htree, he, bind, Except.bind]
  · intro obj2 hbad2
    exact unpackEntry_bad_error fuel (unpackRecurse fuel) name kind obj2
      hkind hbad2

/-- C6 witness: a bundle declaring `d` as kind `dir` over a string value
fails with the FormatError. -/
theorem C6_witness :
    (∃ e, unpackRecurse 1
      [("__META__", Value.obj [("tree", Value.obj [("d", Value.str "dir")])]),
       ("d", Value.str "x")] = .error e) ∧
    ∀ obj2 : Obj, badPairB "d" "dir" obj2 = true →
      unpackEntry 0 (unpackRecurse 0) "d" (Value.str "dir") obj2
        = .error "incompatible meta section" :=
  C6_incompatible_meta 0
    [("__META__", Value.obj [("tree", Value.obj [("d", Value.str "dir")])]),
     ("d", Value.str "x")]
    [("tree", Value.obj [("d", Value.str "dir")])]
    [("d", Value.str "dir")] "d" "dir" rfl rfl (by simp) rfl
    (Or.inr (Or.inr rfl)) rfl

/-! ### Claim C9 -/

/-- C9: when a level's metadata records a config filename (a string under
`config_file`), and the declared tree entries have been consumed leaving
`objRem` with writes `written`, the decoder appends exactly one file named by
the recorded name whose content is the pretty-printed JSON object of the
remaining keys — written only when at least one key remains, and no such
file when none remain. -/
theorem C9_config_writeback (fuel : Nat) (obj : Obj)
    (metaObj : List (String × Value)) (cfgName : String)
    (objRem : Obj) (written : UnpackOut)
    (hmeta : lookupKV "__META__" obj = some (Value.obj metaObj))
    (hcfg : lookupKV "config_file" (eraseKV "tree" metaObj)
      = some (Value.str cfgName))
    (hloop : (match lookupKV "tree" metaObj with
      | some (Value.obj treeMeta) =>
        unpackEntries fuel (unpackRecurse fuel) treeMeta
          (eraseKV "__META__" obj)
      | _ => .ok (eraseKV "__META__" obj, []))
      = .ok (objRem, written)) :
    unpackRecurse (fuel + 1) obj =
      .ok (written ++
        if objRem.isEmpty then []
        else [(cfgName,
          FsNode.file (strToBytes (prettyPrintObj fuel objRem)))]) := by
  simp only [unpackRecurse, removeKV, hmeta]
  cases htv : lookupKV "tree" metaObj with
  | none =>
    simp only [htv] at hloop
    obtain ⟨h1, h2⟩ := Prod.mk.inj (Except.ok.inj hloop)
    subst h1; subst h2
    simp only [htv, bind, Except.bind, hcfg]
    cases he : (eraseKV "__META__" obj).isEmpty <;> simp [he]
  | some tv =>
    cases tv with
    | obj treeMeta =>
      simp only [htv] at hloop
      simp only [htv, hloop, bind, Except.bind, hcfg]
      cases he : objRem.isEmpty <;> simp [he]
    | null =>
      simp only [htv] at hloop
      obtain ⟨h1, h2⟩ := Prod.mk.inj (Except.ok.inj hloop)
      subst h1; subst h2
      simp only [htv, bind, Except.bind, hcfg]
      cases he : (eraseKV "__META__" obj).isEmpty <;> simp [he]
    | str s =>
      simp only [htv] at hloop
      obtain ⟨h1, h2⟩ := Prod.mk.inj (Except.ok.inj hloop)
      subst h1; subst h2
      simp only [htv, bind, Except.bind, hcfg]
      cases he : (eraseKV "__META__" obj).isEmpty <;> simp [he]

/-- C9 witness: a level recording `dna.json` with one leftover key `z`
writes that key back as a pretty-printed config file. -/
theorem C9_witness :
    unpackRecurse 10
      [("__META__", Value.obj [("config_file", Value.str "dna.json")]),
       ("z", Value.null)]
      = .ok ([] ++
        if ([("z", Value.null)] : Obj).isEmpty then []
        else [("dna.json",
          FsNode.file (strToBytes (prettyPrintObj 9 [("z", Value.null)])))]) :=
  C9_config_writeback 9
    [("__META__", Value.obj [("config_file", Value.str "dna.json")]),
     ("z", Value.null)]
    [("config_file", Value.str "dna.json")] "dna.json"
    [("z", Value.null)] [] rfl rfl rfl

/-! ### Claim C8 -/

theorem collectOk_drop_error {α : Type} (e : String) :
    ∀ pre post : List (Except String α),
    collectOk (pre ++ Except.error e :: post) = collectOk (pre ++ post)
  | [], _ => rfl
  | .ok a :: pre, post => by
    simp [collectOk, collectOk_drop_error e pre post]
  | .error e2 :: pre, post => by
    simp [collectOk, collectOk_drop_error e pre post]

/-- C8: the listing does not fail with IOError — a level whose walker yields
only a read error (the listing of an unreadable directory) encodes
successfully as an empty object. -/
theorem C8_counterexample :
    bundleLevelRaw defaultEnv false 10 [Except.error "permission denied"]
      = .ok ([] : Obj) ∧
    ¬ ∃ e, bundleLevelRaw defaultEnv false 10
        [Except.error "permission denied"] = .error e := by
  refine ⟨rfl, ?_⟩
  rintro ⟨e, he⟩
  rw [show bundleLevelRaw defaultEnv false 10
      [Except.error "permission denied"] = Except.ok ([] : Obj) from rfl] at he
  exact Except.noConfusion he

/-- C8 (amended): the walker silently discards unreadable entries
(`filter(is_ok)` before `unwrap`): a read error anywhere in a level's raw
listing never changes the encoder's result, so an unreadable directory
contributes an empty listing rather than an IOError. -/
theorem C8_walker_drops_errors (env : PackEnv) (strip : Bool) (fuel : Nat)
    (pre post : List (Except String (String × FsNode))) (e : String) :
    bundleLevelRaw env strip fuel (pre ++ Except.error e :: post)
      = bundleLevelRaw env strip fuel (pre ++ post) := by
  unfold bundleLevelRaw
  rw [collectOk_drop_error]

/-! ### Claim C4 -/

/-- C4: the declarative order of build steps is not retained. Two descriptors
declaring the same two commands in opposite orders deserialize to the same
steps `HashMap`, so `Build::run`'s iteration cannot follow the declarative
order of both; the order information is already lost in the `Build` value. -/
theorem C4_steps_order_lost :
    hashMapOfEntries [("wasm-gc", ["out.wasm"]), ("cargo", ["build"])]
      = hashMapOfEntries [("cargo", ["build"]), ("wasm-gc", ["out.wasm"])] ∧
    [("wasm-gc", ["out.wasm"]), ("cargo", ["build"])]
      ≠ [("cargo", ["build"]), ("wasm-gc", ["out.wasm"])] :=
  ⟨rfl, by decide⟩

/-! ### Claim C7 -/

theorem runSteps_fails (exec : String → List String → Bool) :
    ∀ steps : List (String × List String),
    (∃ s ∈ steps, exec s.1 s.2 = false) →
    ∃ e, runSteps exec steps = .error e := by
  intro steps
  induction steps with
  | nil => rintro ⟨s, hs, _⟩; simp at hs
  | cons p rest ih =>
    rintro ⟨s, hs, hf⟩
    obtain ⟨bin, args⟩ := p
    by_cases hx : exec bin args = true
    · rcases List.mem_cons.mp hs with he | hm
      · rw [he] at hf; simp [hf] at hx
      · obtain ⟨e, he2⟩ := ih ⟨s, hm, hf⟩
        exact ⟨e, by simp [runSteps, hx, he2]⟩
    · exact ⟨"command failed", by simp [runSteps, hx]⟩

theorem buildRun_fails_of_step (exec : String → List String → Bool)
    (artifact : Option (List Nat)) (b : Build)
    (h : ∃ s ∈ b.steps, exec s.1 s.2 = false) :
    ∃ e, buildRun exec artifact b = .error e := by
  obtain ⟨e, he⟩ := runSteps_fails exec b.steps h
  exact ⟨e, by simp [buildRun, he, bind, Except.bind]⟩

/-- Two same-named siblings are the same entry, when names are nodup. -/
theorem nodupNamesB_unique :
    ∀ (l : List (String × FsNode)) (a b : String × FsNode),
    nodupNamesB (l.map Prod.fst) = true → a ∈ l → b ∈ l → a.1 = b.1 → a = b := by
  intro l
  induction l with
  | nil => intro a b _ ha; simp at ha
  | cons c rest ih =>
    intro a b hnodup ha hb heq
    simp only [List.map_cons, nodupNamesB, Bool.and_eq_true,
      List.all_eq_true] at hnodup
    rcases List.mem_cons.mp ha with ha1 | ha2 <;>
      rcases List.mem_cons.mp hb with hb1 | hb2
    · rw [ha1, hb1]
    · exfalso
      have hbk : b.1 ∈ rest.map Prod.fst := List.mem_map.mpr ⟨b, hb2, rfl⟩
      have := hnodup.1 b.1 hbk
      rw [← heq, ha1] at this
      simp at this
    · exfalso
      have hak : a.1 ∈ rest.map Prod.fst := List.mem_map.mpr ⟨a, ha2, rfl⟩
      have := hnodup.1 a.1 hak
      rw [heq, hb1] at this
      simp at this
    · exact ih a b hnodup.2 ha2 hb2 heq

/-- The per-child loop fails whenever some member is a buildable directory
with failing steps, or a plain directory whose recursion fails. -/
theorem bundleNodes_fails (env : PackEnv)
    (recurse : List (String × FsNode) → Except String Obj) :
    ∀ (children : List (String × FsNode)) (metaAcc mainAcc : Obj)
      (name : String) (sub : List (String × FsNode)),
    (name, FsNode.dir sub) ∈ children →
    (stepsFailB env sub = true ∨
      (findChild ".build" sub = none ∧ ∃ e2, recurse sub = .error e2)) →
    ∃ e, bundleNodes env recurse children metaAcc mainAcc = .error e := by
  intro children
  induction children with
  | nil => intro _ _ _ _ hmem; simp at hmem
  | cons c rest ih =>
    intro metaAcc mainAcc name sub hmem hprob
    rcases List.mem_cons.mp hmem with hhead | htail
    · rw [← hhead]
      rcases hprob with hsf | ⟨hfb, e2, hrec⟩
      · cases hfb2 : findChild ".build" sub with
        | none => simp [stepsFailB, hfb2] at hsf
        | some bn =>
          cases bn with
          | dir d => simp [stepsFailB, hfb2] at hsf
          | file bc =>
            cases hpb : env.parseBuild bc with
            | error e => simp [stepsFailB, hfb2, hpb] at hsf
            | ok build =>
              cases hrs : runSteps env.exec build.steps with
              | ok u => simp [stepsFailB, hfb2, hpb, hrs] at hsf
              | error e =>
                refine ⟨e, ?_⟩
                simp [bundleNodes, hfb2, hpb, buildRun, hrs, bind, Except.bind]
      · refine ⟨e2, ?_⟩
        simp [bundleNodes, hfb, hrec, bind, Except.bind]
    · obtain ⟨cname, cnode⟩ := c
      cases cnode with
      | file content =>
        obtain ⟨e, he⟩ := ih (insertKV cname (Value.str "file") metaAcc)
          (insertKV cname (Value.str (base64Encode content)) mainAcc)
          name sub htail hprob
        exact ⟨e, by simp [bundleNodes, he]⟩
      | dir csub =>
        cases hfb : findChild ".build" csub with
        | none =>
          cases hrec : recurse csub with
          | error e =>
            exact ⟨e, by simp [bundleNodes, hfb, hrec, bind, Except.bind]⟩
          | ok o =>
            obtain ⟨e, he⟩ := ih (insertKV cname (Value.str "dir") metaAcc)
              (insertKV cname (Value.obj o) mainAcc) name sub htail hprob
            exact ⟨e, by simp [bundleNodes, hfb, hrec, he, bind, Except.bind]⟩
        | some bn =>
          cases bn with
          | dir d => exact ⟨"could not open .build", by simp [bundleNodes, hfb]⟩
          | file bc =>
            cases hpb : env.parseBuild bc with
            | error e =>
              exact ⟨e, by simp [bundleNodes, hfb, hpb, bind, Except.bind]⟩
            | ok build =>
              cases hbr : buildRun env.exec (env.artifactBytes csub build)
                  build with
              | error e =>
                exact ⟨e,
                  by simp [bundleNodes, hfb, hpb, hbr, bind, Except.bind]⟩
              | ok wasm =>
                obtain ⟨e, he⟩ := ih (insertKV cname (Value.str "bin") metaAcc)
                  (insertKV cname (Value.obj [("code", Value.str wasm)]) mainAcc)
                  name sub htail hprob
                exact ⟨e,
                  by simp [bundleNodes, hfb, hpb, hbr, he, bind, Except.bind]⟩

/-- A failing build anywhere the encoder reaches makes `bundle_recurse`
fail. -/
theorem bundleRecurse_fails_of_failing_build (env : PackEnv) (strip : Bool) :
    ∀ (fuel : Nat) (children : List (String × FsNode)),
    nodupTreeB fuel children = true →
    hasFailingBuildB env fuel children = true →
    ∃ e, bundleRecurse env strip fuel children = .error e := by
  intro fuel
  induction fuel with
  | zero => intro children _ hf; simp [hasFailingBuildB] at hf
  | succ fuel ih =>
    intro children hnodup hfail
    simp only [hasFailingBuildB, List.any_eq_true] at hfail
    obtain ⟨c, hc, hcprob⟩ := hfail
    obtain ⟨name, node⟩ := c
    cases node with
    | file content => simp at hcprob
    | dir sub =>
      simp only [Bool.or_eq_true] at hcprob
      simp only [nodupTreeB, Bool.and_eq_true, List.all_eq_true] at hnodup
      have hprob : stepsFailB env sub = true ∨
          (findChild ".build" sub = none ∧
            ∃ e2, bundleRecurse env strip fuel sub = .error e2) := by
        rcases hcprob with hsf | hnest
        · exact Or.inl hsf
        · cases hfb : findChild ".build" sub with
          | some bn => simp only [hfb] at hnest; simp at hnest
          | none =>
            simp only [hfb] at hnest
            have hnsub : nodupTreeB fuel sub = true := by
              have := hnodup.2 (name, FsNode.dir sub) hc
              simpa only [hfb] using this
            exact Or.inr ⟨rfl, ih sub hnsub hnest⟩
      cases hfind : (children.filter fun c2 => c2.2.isFileB).find?
          (fun c2 => endsWithB c2.1 ".json") with
      | none =>
        obtain ⟨e, he⟩ := bundleNodes_fails env (bundleRecurse env strip fuel)
          children [] [] name sub hc hprob
        exact ⟨e, by simp [bundleRecurse, hfind, he, bind, Except.bind]⟩
      | some j =>
        obtain ⟨jname, jnode⟩ := j
        have hjmem : (jname, jnode) ∈ children.filter fun c2 => c2.2.isFileB :=
          List.mem_of_find?_eq_some hfind
        have hjchildren : (jname, jnode) ∈ children :=
          (List.mem_filter.mp hjmem).1
        have hjfile : jnode.isFileB = true := by
          simpa using (List.mem_filter.mp hjmem).2
        cases jnode with
        | dir d => simp [FsNode.isFileB] at hjfile
        | file content =>
          have hneq : name ≠ jname := by
            intro he
            have := nodupNamesB_unique children (name, FsNode.dir sub)
              (jname, FsNode.file content) hnodup.1 hc hjchildren (by simpa using he)
            simp at this
          have hmemf : (name, FsNode.dir sub) ∈
              children.filter fun c2 => c2.1 != jname :=
            List.mem_filter.mpr ⟨hc, by simpa using hneq⟩
          cases hp : env.parseJsonObj content with
          | error e =>
            exact ⟨e, by
              simp [bundleRecurse, hfind, hp, Except.map, bind, Except.bind]⟩
          | ok cfg =>
            obtain ⟨e, he⟩ := bundleNodes_fails env
              (bundleRecurse env strip fuel)
              (children.filter fun c2 => c2.1 != jname) [] cfg name sub
              hmemf hprob
            exact ⟨e, by
              simp [bundleRecurse, hfind, hp, he, Except.map, bind, Except.bind]⟩

/-- C7: whenever some reached build descriptor's command exits non-zero,
`Build::run` fails (any failing declared step makes it error), and the whole
pack operation fails before `File::create`, so no bundle file is written. -/
theorem C7_build_failure_aborts (env : PackEnv) (strip : Bool) (fuel : Nat)
    (children : List (String × FsNode))
    (hnodup : nodupTreeB fuel children = true)
    (hfail : hasFailingBuildB env fuel children = true) :
    (∀ (exec : String → List String → Bool) (artifact : Option (List Nat))
        (b : Build), (∃ s ∈ b.steps, exec s.1 s.2 = false) →
        ∃ e, buildRun exec artifact b = .error e) ∧
    ∃ e, packagerRun env strip fuel children = .error e := by
  refine ⟨fun exec artifact b h => buildRun_fails_of_step exec artifact b h, ?_⟩
  obtain ⟨e, he⟩ := bundleRecurse_fails_of_failing_build env strip fuel
    children hnodup hfail
  exact ⟨e, by simp [packagerRun, he, Except.map]⟩

/-- C7 witness: a project with one buildable directory whose single build
step fails packs to an error and writes no bundle. -/
theorem C7_witness :
    ((∀ (exec : String → List String → Bool) (artifact : Option (List Nat))
        (b : Build), (∃ s ∈ b.steps, exec s.1 s.2 = false) →
        ∃ e, buildRun exec artifact b = .error e) ∧
    ∃ e, packagerRun failEnv false 2
        [("zome", FsNode.dir [(".build", FsNode.file [])])] = .error e) :=
  C7_build_failure_aborts failEnv false 2
    [("zome", FsNode.dir [(".build", FsNode.file [])])] rfl rfl

/-! ### Claim C10: support lemmas -/

theorem strLtB_of_not_of_ne {a b : String} (h1 : strLtB a b = false)
    (h2 : a ≠ b) : strLtB b a = true := by
  cases hba : strLtB b a with
  | true => rfl
  | false => exact absurd (strLtB_eq_of_not h1 hba) h2

theorem lookupKV_mapVals (f : String → Value → Value) (k : String) :
    ∀ o : Obj, lookupKV k (mapVals f o) = (lookupKV k o).map (f k)
  | [] => rfl
  | (k', v) :: rest => by
    by_cases hk : k = k'
    · subst hk; simp [mapVals, lookupKV]
    · have ih := lookupKV_mapVals f k rest
      simp only [mapVals] at ih
      simp [mapVals, lookupKV, hk, ih]

theorem keysOf_mapVals (f : String → Value → Value) (o : Obj) :
    keysOf (mapVals f o) = keysOf o := by
  simp [keysOf, mapVals]

theorem sortedNamesB_nodup : ∀ l : List String,
    sortedNamesB l = true → nodupNamesB l = true := by
  intro l
  induction l with
  | nil => intro _; rfl
  | cons a rest ih =>
    intro h
    have htail := sortedNamesB_tail h
    have hlt := sortedNamesB_head_lt a rest h
    simp only [nodupNamesB, Bool.and_eq_true, List.all_eq_true]
    refine ⟨fun m hm => ?_, ih htail⟩
    simpa using Ne.symm (strLtB_ne (hlt m hm))

theorem assoc_ext {α : Type} : ∀ (a b : List (String × α)),
    keysOf a = keysOf b → nodupNamesB (keysOf a) = true →
    (∀ k, lookupKV k a = lookupKV k b) → a = b := by
  intro a
  induction a with
  | nil =>
    intro b hk _ _
    cases b with
    | nil => rfl
    | cons q b2 => simp [keysOf] at hk
  | cons p a2 ih =>
    intro b hk hnd hl
    obtain ⟨k0, v0⟩ := p
    cases b with
    | nil => simp [keysOf] at hk
    | cons q b2 =>
      obtain ⟨k1, w0⟩ := q
      simp only [keysOf, List.map_cons, List.cons.injEq] at hk
      obtain ⟨hk0, hkrest⟩ := hk
      subst hk0
      have hv : v0 = w0 := by
        have := hl k0
        simpa [lookupKV] using this
      subst hv
      simp only [keysOf, List.map_cons, nodupNamesB, Bool.and_eq_true,
        List.all_eq_true] at hnd
      have hkeyne : ∀ m ∈ a2.map Prod.fst, m ≠ k0 := by
        intro m hm
        have := hnd.1 m hm
        simpa using this
      have hnone_a : lookupKV k0 a2 = none :=
        lookupKV_eq_none_of _ _ fun p2 hp2 =>
          hkeyne p2.1 (List.mem_map.mpr ⟨p2, hp2, rfl⟩)
      have hnone_b : lookupKV k0 b2 = none :=
        lookupKV_eq_none_of _ _ fun p2 hp2 => by
          have : p2.1 ∈ b2.map Prod.fst := List.mem_map.mpr ⟨p2, hp2, rfl⟩
          rw [← hkrest] at this
          exact hkeyne p2.1 this
      have htl : a2 = b2 := by
        refine ih b2 hkrest hnd.2 fun k => ?_
        by_cases hkk : k = k0
        · subst hkk; rw [hnone_a, hnone_b]
        · have := hl k
          simpa [lookupKV, hkk] using this
      rw [htl]

theorem keysOf_insertKV_congr {α β : Type} (k : String) (v : α) (w : β) :
    ∀ (a : List (String × α)) (b : List (String × β)), keysOf a = keysOf b →
    keysOf (insertKV k v a) = keysOf (insertKV k w b)
  | [], [] => fun _ => rfl
  | [], q :: b2 => by intro h; simp [keysOf] at h
  | p :: a2, [] => by intro h; simp [keysOf] at h
  | p :: a2, q :: b2 => by
    intro h
    obtain ⟨kp, vp⟩ := p
    obtain ⟨kq, wq⟩ := q
    simp only [keysOf, List.map_cons, List.cons.injEq] at h
    obtain ⟨h1, h2⟩ := h
    subst h1
    by_cases hlt : strLtB k kp = true
    · simp [insertKV, hlt, keysOf, h2]
    · by_cases heq : k = kp
      · simp [insertKV, hlt, heq, keysOf, h2, strLtB_irrefl]
      · have := keysOf_insertKV_congr k v w a2 b2 h2
        simp [insertKV, hlt, heq, keysOf] at this ⊢
        exact this

theorem sortedNamesB_cons_of {a : String} {l : List String}
    (hs : sortedNamesB l = true)
    (hh : ∀ b, l.head? = some b → strLtB a b = true) :
    sortedNamesB (a :: l) = true := by
  cases l with
  | nil => rfl
  | cons b l2 =>
    simp only [sortedNamesB, Bool.and_eq_true]
    exact ⟨hh b rfl, hs⟩

theorem insertKV_sorted_keys {α : Type} (k : String) (v : α) :
    ∀ m : List (String × α), sortedNamesB (keysOf m) = true →
    sortedNamesB (keysOf (insertKV k v m)) = true
  | [], _ => rfl
  | (k1, v1) :: rest, h => by
    have htail : sortedNamesB (keysOf rest) = true := by
      simpa [keysOf] using sortedNamesB_tail (by simpa [keysOf] using h)
    by_cases hlt : strLtB k k1 = true
    · simp only [insertKV, hlt, if_true, keysOf, List.map_cons]
      exact sortedNamesB_cons_of (by simpa [keysOf] using h)
        (fun b hb => by simp at hb; rw [← hb]; exact hlt)
    · by_cases heq : k = k1
      · subst heq
        simpa [insertKV, hlt, keysOf] using h
      · have hgt : strLtB k1 k = true :=
          strLtB_of_not_of_ne (by simpa using hlt) heq
        simp only [insertKV, hlt, heq, if_false, keysOf, List.map_cons]
        refine sortedNamesB_cons_of
          (by simpa [keysOf] using insertKV_sorted_keys k v rest htail) ?_
        intro b hb
        cases rest with
        | nil =>
          simp [insertKV, keysOf] at hb
          rw [← hb]; exact hgt
        | cons p2 rest2 =>
          have hk12 : strLtB k1 p2.1 = true := by
            simp only [keysOf, List.map_cons, sortedNamesB,
              Bool.and_eq_true] at h
            exact h.1
          by_cases hlt2 : strLtB k p2.1 = true
          · simp [insertKV, hlt2] at hb
            subst hb; exact hgt
          · by_cases heq2 : k = p2.1
            · subst heq2
              simp [insertKV, strLtB_irrefl] at hb
              subst hb; exact hgt
            · simp [insertKV, hlt2, heq2] at hb
              subst hb; exact hk12

theorem eraseKV_eq_of_none {α : Type} (k : String) :
    ∀ m : List (String × α), lookupKV k m = none → eraseKV k m = m
  | [], _ => rfl
  | (k1, v) :: rest, h => by
    have hne : ¬(k = k1) := by
      intro he; subst he; simp [lookupKV] at h
    have hrest : lookupKV k rest = none := by
      simpa [lookupKV, hne] using h
    simp [eraseKV, hne, eraseKV_eq_of_none k rest hrest]

theorem findChild_mem :
    ∀ (l : List (String × FsNode)) (k : String) (node : FsNode),
    findChild k l = some node → (k, node) ∈ l
  | [], _, _, h => by simp [findChild] at h
  | (n, nd) :: rest, k, node, h => by
    by_cases hn : n = k
    · subst hn
      simp [findChild] at h
      subst h
      exact List.mem_cons_self _ _
    · simp only [findChild, hn, if_false] at h
      exact List.mem_cons.mpr (Or.inr (findChild_mem rest k node h))

theorem findChild_eq_of_mem_nodup :
    ∀ (l : List (String × FsNode)) (k : String) (node : FsNode),
    nodupNamesB (l.map Prod.fst) = true → (k, node) ∈ l →
    findChild k l = some node
  | [], _, _, _, hm => by simp at hm
  | (n, nd) :: rest, k, node, hnd, hm => by
    simp only [List.map_cons, nodupNamesB, Bool.and_eq_true,
      List.all_eq_true] at hnd
    rcases List.mem_cons.mp hm with hh | ht
    · obtain ⟨h1, h2⟩ := Prod.mk.inj hh
      subst h1; subst h2
      simp [findChild]
    · have hne : n ≠ k := by
        intro he
        have hmk : n ∈ rest.map Prod.fst := by
          rw [he]
          exact List.mem_map.mpr ⟨(k, node), ht, rfl⟩
        have := hnd.1 n hmk
        simp at this
      simp [findChild, hne, findChild_eq_of_mem_nodup rest k node hnd.2 ht]

theorem stripEntryVal_str (g : List (String × FsNode) → Obj → Obj)
    (children : List (String × FsNode)) (k s : String) :
    stripEntryVal g children k (Value.str s) = Value.str s := by
  cases hf : findChild k children with
  | none => simp [stripEntryVal, hf]
  | some node =>
    cases node with
    | file c => simp [stripEntryVal, hf]
    | dir sub =>
      cases hb2 : findChild ".build" sub with
      | none => simp [stripEntryVal, hf, hb2]
      | some x => simp [stripEntryVal, hf, hb2]

theorem nodupNamesB_filter (p : (String × FsNode) → Bool) :
    ∀ l : List (String × FsNode), nodupNamesB (l.map Prod.fst) = true →
    nodupNamesB ((l.filter p).map Prod.fst) = true
  | [], _ => rfl
  | c :: rest, h => by
    simp only [List.map_cons, nodupNamesB, Bool.and_eq_true,
      List.all_eq_true] at h
    by_cases hp : p c = true
    · simp only [List.filter_cons, hp, if_true, List.map_cons, nodupNamesB,
        Bool.and_eq_true, List.all_eq_true]
      refine ⟨fun m hm => ?_, nodupNamesB_filter p rest h.2⟩
      obtain ⟨x, hx, rfl⟩ := List.mem_map.mp hm
      exact h.1 x.1 (List.mem_map.mpr ⟨x, (List.mem_filter.mp hx).1, rfl⟩)
    · simp only [List.filter_cons, hp, if_false]
      exact nodupNamesB_filter p rest h.2

theorem insertKV_not_empty {α : Type} (k : String) (v : α) :
    ∀ m : List (String × α), (insertKV k v m).isEmpty = false
  | [] => rfl
  | (k1, v1) :: rest => by
    by_cases hlt : strLtB k k1 = true
    · simp [insertKV, hlt]
    · by_cases heq : k = k1 <;> simp [insertKV, hlt, heq, strLtB_irrefl]

/-- The two runs of the per-child loop differ exactly by the pointwise strip
transformation `f` on the accumulated `main_tree`: same failures, same
`meta_tree`, `main_tree`s related by `mapVals f`. -/
theorem bundleNodes_strip_rel (env : PackEnv)
    (recurseT recurseF : List (String × FsNode) → Except String Obj)
    (f : String → Value → Value) :
    ∀ (nodes : List (String × FsNode)) (metaAcc mainT mainF : Obj),
    (∀ k content, (k, FsNode.file content) ∈ nodes →
      f k (Value.str (base64Encode content))
        = Value.str (base64Encode content)) →
    (∀ k sub, (k, FsNode.dir sub) ∈ nodes →
      (∀ bn, findChild ".build" sub = some bn →
        ∀ w : String, f k (Value.obj [("code", Value.str w)])
          = Value.obj [("code", Value.str w)]) ∧
      (findChild ".build" sub = none →
        (∀ e, recurseF sub = Except.error e → recurseT sub = Except.error e) ∧
        (∀ oF, recurseF sub = Except.ok oF →
          ∃ oT, recurseT sub = Except.ok oT ∧
            f k (Value.obj oF) = Value.obj oT))) →
    keysOf mainT = keysOf mainF →
    sortedNamesB (keysOf mainF) = true →
    (∀ k, k ∉ nodes.map Prod.fst →
      lookupKV k mainT = (lookupKV k mainF).map (f k)) →
    bundleNodes env recurseT nodes metaAcc mainT
      = (bundleNodes env recurseF nodes metaAcc mainF).map
          (fun p => (p.1, mapVals f p.2)) := by
  intro nodes
  induction nodes with
  | nil =>
    intro metaAcc mainT mainF _ _ hkeys hsorted hpoint
    have hext : mainT = mapVals f mainF := by
      apply assoc_ext
      · rw [hkeys, keysOf_mapVals]
      · rw [hkeys]; exact sortedNamesB_nodup _ hsorted
      · intro k
        rw [lookupKV_mapVals]
        exact hpoint k (by simp)
    simp [bundleNodes, hext, Except.map]
  | cons c rest ih =>
    intro metaAcc mainT mainF hfile hdir hkeys hsorted hpoint
    obtain ⟨cname, cnode⟩ := c
    have hstep : ∀ vT vF : Value, f cname vF = vT →
        ∀ k, k ∉ rest.map Prod.fst →
        lookupKV k (insertKV cname vT mainT)
          = (lookupKV k (insertKV cname vF mainF)).map (f k) := by
      intro vT vF hv k hk
      by_cases hkc : k = cname
      · subst hkc
        rw [lookupKV_insertKV_self, lookupKV_insertKV_self]
        simp [hv]
      · rw [lookupKV_insertKV_ne cname k vT hkc mainT,
          lookupKV_insertKV_ne cname k vF hkc mainF]
        refine hpoint k ?_
        simp only [List.map_cons, List.mem_cons, not_or]
        exact ⟨hkc, hk⟩
    have hfile' : ∀ k content, (k, FsNode.file content) ∈ rest →
        f k (Value.str (base64Encode content))
          = Value.str (base64Encode content) :=
      fun k c2 hm => hfile k c2 (by simp [hm])
    have hdir' := fun k s hm => hdir k s (List.mem_cons.mpr (Or.inr hm))
    cases cnode with
    | file content =>
      have hv := hfile cname content (by simp)
      simp only [bundleNodes]
      exact ih _ _ _ hfile' hdir'
        (keysOf_insertKV_congr _ _ _ _ _ hkeys)
        (insertKV_sorted_keys _ _ _ hsorted)
        (hstep _ _ hv)
    | dir sub =>
      have hsub := hdir cname sub (by simp)
      cases hfb : findChild ".build" sub with
      | some bn =>
        cases bn with
        | dir d =>
          simp [bundleNodes, hfb, Except.map]
        | file bc =>
          cases hpb : env.parseBuild bc with
          | error e =>
            simp [bundleNodes, hfb, hpb, bind, Except.bind, Except.map]
          | ok build =>
            cases hbr : buildRun env.exec (env.artifactBytes sub build)
                build with
            | error e =>
              simp [bundleNodes, hfb, hpb, hbr, bind, Except.bind, Except.map]
            | ok wasm =>
              have hv := hsub.1 (FsNode.file bc) hfb wasm
              simp only [bundleNodes, hfb, hpb, hbr, bind, Except.bind]
              exact ih _ _ _ hfile' hdir'
                (keysOf_insertKV_congr _ _ _ _ _ hkeys)
                (insertKV_sorted_keys _ _ _ hsorted)
                (hstep _ _ hv)
      | none =>
        obtain ⟨herr, hok⟩ := hsub.2 hfb
        cases hrF : recurseF sub with
        | error e =>
          have hrT := herr e hrF
          simp [bundleNodes, hfb, hrF, hrT, bind, Except.bind, Except.map]
        | ok oF =>
          obtain ⟨oT, hrT, hv⟩ := hok oF hrF
          simp only [bundleNodes, hfb, hrF, hrT, bind, Except.bind]
          exact ih _ _ _ hfile' hdir'
            (keysOf_insertKV_congr _ _ _ _ _ hkeys)
            (insertKV_sorted_keys _ _ _ hsorted)
            (hstep _ _ hv)

/-- C10 (amended): along a traversal where the reserved key collides with no
content (sibling names duplicate-free and never `__META__`; a hoisted config
object — key-sorted, as `serde_json`'s map is — with no top-level `__META__`
field), packing with `strip_meta=true` yields exactly the `strip_meta=false`
object with the reserved metadata key removed at the level and recursively
inside the value of every plain-subdirectory child; all other keys and
values, and any failure, are identical between the two modes. -/
theorem C10_strip_frame (env : PackEnv) :
    ∀ (fuel : Nat) (children : List (String × FsNode)),
    metaCleanB env fuel children = true →
    bundleRecurse env true fuel children
      = (bundleRecurse env false fuel children).map
          (stripAlong fuel children) := by
  intro fuel
  induction fuel with
  | zero => intro children h; simp [metaCleanB] at h
  | succ fuel ih =>
    intro children hclean
    simp only [metaCleanB, Bool.and_eq_true] at hclean
    obtain ⟨⟨⟨hnodup, hmeta⟩, hcfgclean⟩, hsubs⟩ := hclean
    simp only [List.all_eq_true] at hmeta hsubs
    have hmeta' : ∀ c ∈ children, c.1 ≠ "__META__" := by
      intro c hc
      have := hmeta c hc
      simpa using this
    have hfileH : ∀ k content, (k, FsNode.file content) ∈ children →
        stripEntryVal (stripAlong fuel) children k
            (Value.str (base64Encode content))
          = Value.str (base64Encode content) :=
      fun k c2 _ => stripEntryVal_str _ _ _ _
    have hdirH : ∀ k sub, (k, FsNode.dir sub) ∈ children →
        (∀ bn, findChild ".build" sub = some bn →
          ∀ w : String, stripEntryVal (stripAlong fuel) children k
              (Value.obj [("code", Value.str w)])
            = Value.obj [("code", Value.str w)]) ∧
        (findChild ".build" sub = none →
          (∀ e, bundleRecurse env false fuel sub = Except.error e →
            bundleRecurse env true fuel sub = Except.error e) ∧
          (∀ oF, bundleRecurse env false fuel sub = Except.ok oF →
            ∃ oT, bundleRecurse env true fuel sub = Except.ok oT ∧
              stripEntryVal (stripAlong fuel) children k (Value.obj oF)
                = Value.obj oT)) := by
      intro k sub hm
      have hfc : findChild k children = some (FsNode.dir sub) :=
        findChild_eq_of_mem_nodup children k (FsNode.dir sub) hnodup hm
      constructor
      · intro bn hbn w
        simp [stripEntryVal, hfc, hbn]
      · intro hfb
        have hsubclean : metaCleanB env fuel sub = true := by
          have := hsubs (k, FsNode.dir sub) hm
          simpa [hfb] using this
        have hih := ih sub hsubclean
        constructor
        · intro e he
          rw [hih, he]; rfl
        · intro oF hoF
          refine ⟨stripAlong fuel sub oF, ?_, ?_⟩
          · rw [hih, hoF]; rfl
          · simp [stripEntryVal, hfc, hfb]
    cases hfind : (children.filter fun c => c.2.isFileB).find?
        (fun c => endsWithB c.1 ".json") with
    | none =>
      have hrel := bundleNodes_strip_rel env (bundleRecurse env true fuel)
        (bundleRecurse env false fuel)
        (stripEntryVal (stripAlong fuel) children) children [] [] []
        hfileH hdirH rfl rfl (fun k _ => rfl)
      cases hbnF : bundleNodes env (bundleRecurse env false fuel)
          children [] [] with
      | error e =>
        have hbnT : bundleNodes env (bundleRecurse env true fuel)
            children [] [] = .error e := by rw [hrel, hbnF]; rfl
        simp [bundleRecurse, hfind, hbnT, hbnF, bind, Except.bind, Except.map]
      | ok p =>
        obtain ⟨mt, mnF⟩ := p
        have hbnT : bundleNodes env (bundleRecurse env true fuel)
            children [] []
            = .ok (mt, mapVals (stripEntryVal (stripAlong fuel) children) mnF)
            := by rw [hrel, hbnF]; rfl
        have hnometa : lookupKV "__META__" mnF = none :=
          bundleNodes_lookup_none env _ "__META__" children [] [] mt mnF
            hmeta' rfl hbnF
        have her : ∀ v : Value,
            eraseKV "__META__" (insertKV "__META__" v mnF) = mnF :=
          fun v => eraseKV_insertKV _ v mnF hnometa
        simp only [bundleRecurse, hfind, hbnT, hbnF, bind, Except.bind]
        by_cases hme : mt.isEmpty = true
        · simp [hme, Except.map, stripAlong,
            eraseKV_eq_of_none "__META__" mnF hnometa]
        · simp [hme, Except.map, stripAlong, her, insertKV_not_empty]
    | some j =>
      obtain ⟨jname, jnode⟩ := j
      have hjmem_f : (jname, jnode) ∈ children.filter fun c2 => c2.2.isFileB :=
        List.mem_of_find?_eq_some hfind
      have hjmem : (jname, jnode) ∈ children := (List.mem_filter.mp hjmem_f).1
      have hjfile : jnode.isFileB = true := by
        simpa using (List.mem_filter.mp hjmem_f).2
      cases jnode with
      | dir d => simp [FsNode.isFileB] at hjfile
      | file content =>
        cases hp : env.parseJsonObj content with
        | error e =>
          simp [bundleRecurse, hfind, hp, Except.map, bind, Except.bind]
        | ok cfg =>
          simp only [hfind, hp] at hcfgclean
          simp only [Bool.and_eq_true, Option.isNone_iff_eq_none] at hcfgclean
          obtain ⟨hcfgmeta, hcfgsorted⟩ := hcfgclean
          have hsubmem : ∀ c2, c2 ∈ (children.filter fun c3 => c3.1 != jname)
              → c2 ∈ children :=
            fun c2 hc2 => (List.mem_filter.mp hc2).1
          have hpoint : ∀ k,
              k ∉ (children.filter fun c3 => c3.1 != jname).map Prod.fst →
              lookupKV k cfg = (lookupKV k cfg).map
                (stripEntryVal (stripAlong fuel) children k) := by
            intro k hk
            cases hlk : lookupKV k cfg with
            | none => rfl
            | some v =>
              have hid : stripEntryVal (stripAlong fuel) children k v = v := by
                cases hfc : findChild k children with
                | none => simp [stripEntryVal, hfc]
                | some node =>
                  cases node with
                  | file c2 => simp [stripEntryVal, hfc]
                  | dir sub =>
                    cases hfb : findChild ".build" sub with
                    | some bn => simp [stripEntryVal, hfc, hfb]
                    | none =>
                      exfalso
                      have hmemc : (k, FsNode.dir sub) ∈ children :=
                        findChild_mem children k _ hfc
                      have hkj : k ≠ jname := by
                        intro he
                        have := nodupNamesB_unique children
                          (k, FsNode.dir sub) (jname, FsNode.file content)
                          hnodup hmemc hjmem (by simpa using he)
                        simp at this
                      exact hk (List.mem_map.mpr ⟨(k, FsNode.dir sub),
                        List.mem_filter.mpr ⟨hmemc, by simpa using hkj⟩, rfl⟩)
              simp [hid]
          have hrel := bundleNodes_strip_rel env (bundleRecurse env true fuel)
            (bundleRecurse env false fuel)
            (stripEntryVal (stripAlong fuel) children)
            (children.filter fun c3 => c3.1 != jname) [] cfg cfg
            (fun k c2 hm => hfileH k c2 (hsubmem _ hm))
            (fun k s hm => hdirH k s (hsubmem _ hm))
            rfl hcfgsorted hpoint
          cases hbnF : bundleNodes env (bundleRecurse env false fuel)
              (children.filter fun c3 => c3.1 != jname) [] cfg with
          | error e =>
            have hbnT : bundleNodes env (bundleRecurse env true fuel)
                (children.filter fun c3 => c3.1 != jname) [] cfg
                = .error e := by
              rw [hrel, hbnF]; rfl
            simp [bundleRecurse, hfind, hp, hbnT, hbnF, bind, Except.bind,
              Except.map]
          | ok p =>
            obtain ⟨mt, mnF⟩ := p
            have hbnT : bundleNodes env (bundleRecurse env true fuel)
                (children.filter fun c3 => c3.1 != jname) [] cfg
                = .ok (mt,
                    mapVals (stripEntryVal (stripAlong fuel) children) mnF)
                := by rw [hrel, hbnF]; rfl
            have hnometa : lookupKV "__META__" mnF = none :=
              bundleNodes_lookup_none env _ "__META__"
                (children.filter fun c3 => c3.1 != jname) [] cfg mt mnF
                (fun c2 hc2 => hmeta' c2 (hsubmem c2 hc2)) hcfgmeta hbnF
            have her : ∀ v : Value,
                eraseKV "__META__" (insertKV "__META__" v mnF) = mnF :=
              fun v => eraseKV_insertKV _ v mnF hnometa
            simp only [bundleRecurse, hfind, hp, hbnT, hbnF, bind,
              Except.bind, Except.map]
            by_cases hme : mt.isEmpty = true
            · simp [hme, Except.map, stripAlong, her, Except.bind]
            · simp [hme, Except.map, stripAlong, her, insertKV_not_empty]

/-- C10 counterexample: a level with one child literally named `__META__`
(an empty file). Packing with `strip_meta=true` keeps that child's encoded
content under the reserved key, while removing the reserved key from the
`strip_meta=false` bundle — at the level and recursively under plain
subdirectories, as the claim prescribes — deletes the child's entry along
with the metadata, so the two sides differ. -/
theorem C10_counterexample :
    bundleRecurse defaultEnv true 2 [("__META__", FsNode.file [])]
      = Except.ok [("__META__", Value.str "")] ∧
    (bundleRecurse defaultEnv false 2 [("__META__", FsNode.file [])]).map
        (stripAlong 2 [("__META__", FsNode.file [])])
      = Except.ok ([] : Obj) ∧
    bundleRecurse defaultEnv true 2 [("__META__", FsNode.file [])]
      ≠ (bundleRecurse defaultEnv false 2 [("__META__", FsNode.file [])]).map
          (stripAlong 2 [("__META__", FsNode.file [])]) := by
  refine ⟨rfl, rfl, fun h => ?_⟩
  have h2 : (Except.ok [("__META__", Value.str "")] : Except String Obj)
      = Except.ok ([] : Obj) := h
  simp at h2

/-- C10 witness: the frame theorem instantiated at a concrete one-file
level whose cleanliness condition evaluates to `true`. -/
theorem C10_witness :
    metaCleanB defaultEnv 2 [("a", FsNode.file [104])] = true ∧
    bundleRecurse defaultEnv true 2 [("a", FsNode.file [104])]
      = (bundleRecurse defaultEnv false 2 [("a", FsNode.file [104])]).map
          (stripAlong 2 [("a", FsNode.file [104])]) :=
  ⟨rfl, C10_strip_frame defaultEnv 2 [("a", FsNode.file [104])] rfl⟩

end HolochainCmd

